import Mathlib

/-!
Verification of the pat2midi converter (src/pat2midi.ts) against its
natural-language specification.  The two core functions, `parsePatFile`
and `convertPatternToMidi`, are embedded shallowly below; JavaScript
strings become `String`/`List Char`, the `Infinity` sentinel used for
`patternLength` becomes `Option Nat` with `none` playing the role of
`Infinity`, and `Number(note)` (which can yield `NaN`) becomes
`Option Int` with `none` playing the role of `NaN`.  The external
serializer's duration-to-ticks lookup is an opaque parameter
`getTick : ℚ → Nat`, exactly as the spec treats it.
-/

namespace Pat2Midi

/-- Whitespace as stripped by JavaScript `String.prototype.trim`:
ECMA-262 WhiteSpace (TAB, VT, FF, SP, NBSP, ZWNBSP and the Unicode
space separators U+1680, U+2000..U+200A, U+202F, U+205F, U+3000)
together with the LineTerminator characters (LF, CR, LS, PS). -/
def isWs (c : Char) : Bool :=
  c = ' ' || c = '\t' || c = '\n' || c = '\r' ||
  c.val = 0x0B || c.val = 0x0C || c.val = 0xA0 || c.val = 0x1680 ||
  (0x2000 ≤ c.val && c.val ≤ 0x200A) || c.val = 0x2028 || c.val = 0x2029 ||
  c.val = 0x202F || c.val = 0x205F || c.val = 0x3000 || c.val = 0xFEFF

/-- The rendered-line round trip is safe when a step string does not end
in a whitespace character; this predicate captures exactly that. -/
def endsNonWs (l : List Char) : Bool :=
  match l.getLast? with
  | none => true
  | some ch => !(isWs ch)

/-- JavaScript `trim`: drop whitespace from both ends of a character list. -/
def jsTrim (l : List Char) : List Char :=
  ((l.dropWhile isWs).reverse.dropWhile isWs).reverse

/-- One instrument line of a parsed pattern (`DrumHit` in the source:
`note` is kept as the raw token, `pattern` is the step string). -/
structure DrumHit where
  note : String
  pattern : String
deriving Repr, DecidableEq

/-- Result of `parsePatFile`.  `patternLength` is a JavaScript number that
starts at `Infinity`; `none` models `Infinity`. -/
structure ParsedPattern where
  hits : List DrumHit
  accents : List Bool
  patternLength : Option Nat
deriving Repr, DecidableEq

/-- JavaScript `Math.min` where the accumulator may be `Infinity` (`none`). -/
def minInf : Option Nat → Nat → Option Nat
  | none, n => some n
  | some m, n => some (min m n)

/-- Mutable state of the `lines.forEach` pass inside `parsePatFile`. -/
structure ParseState where
  accents : List Bool
  hits : List DrumHit
  patternLength : Option Nat
deriving Repr, DecidableEq

/-- Tokenization of one line: `line.trim().split(" ")`, destructured into
the first two tokens, rejected when either is missing or empty
(`if (!note || !pattern) return`). -/
def lineTokens (line : String) : Option (String × String) :=
  let toks := (jsTrim line.data).splitOn ' '
  match toks.get? 0, toks.get? 1 with
  | some a, some b => if a = [] ∨ b = [] then none else some (⟨a⟩, ⟨b⟩)
  | _, _ => none

/-- Accent mask from an `AC` line: `pattern.split("").map(c => c === "x")`. -/
def acMask (pat : String) : List Bool :=
  pat.data.map (fun c => c == 'x')

/-- Body of the `lines.forEach` callback in `parsePatFile`. -/
def parseLine (st : ParseState) (line : String) : ParseState :=
  match lineTokens line with
  | none => st
  | some (note, pat) =>
    if note = "AC" then
      { st with accents := acMask pat,
                patternLength := minInf st.patternLength pat.length }
    else
      { st with hits := st.hits ++ [⟨note, pat⟩],
                patternLength := minInf st.patternLength pat.length }

/-- The line list scanned by the parser: `content.trim().split("\n")`. -/
def patLines (content : String) : List String :=
  ((jsTrim content.data).splitOn '\n').map (fun l => (⟨l⟩ : String))

/-- JavaScript `s.substring(0, k)` where `k` may be `Infinity` (`none`). -/
def truncStr (s : String) : Option Nat → String
  | none => s
  | some k => ⟨s.data.take k⟩

/-- JavaScript `a.slice(0, k)` where `k` may be `Infinity` (`none`). -/
def truncList {α : Type} (l : List α) : Option Nat → List α
  | none => l
  | some k => l.take k

/-- Embedding of `parsePatFile` (src/pat2midi.ts lines 81-107).  The
`name` argument is unused, exactly as in the source. -/
def parsePatFile (content : String) (_name : String) : ParsedPattern :=
  let st := (patLines content).foldl parseLine ⟨[], [], none⟩
  { hits := st.hits.map (fun h => ⟨h.note, truncStr h.pattern st.patternLength⟩),
    accents := truncList st.accents st.patternLength,
    patternLength := st.patternLength }

/-- Configuration consumed by the synthesizer (already merged with the
defaults by the caller, as in `{ ...DEFAULT_CONFIG, ...options }`). -/
structure MidiOptions where
  bpm : ℚ
  noteDuration : ℚ
  accentVelocity : Nat
  normalVelocity : Nat
deriving Repr, DecidableEq

/-- The default configuration of the source. -/
def DEFAULT_CONFIG : MidiOptions :=
  { bpm := 120, noteDuration := 16, accentVelocity := 80, normalVelocity := 60 }

/-- Decimal digit-string value, `none` when some character is not a digit. -/
def decNat (l : List Char) : Option Nat :=
  if l ≠ [] ∧ l.all Char.isDigit then
    some (l.foldl (fun acc c => acc * 10 + (c.toNat - 48)) 0)
  else none

/-- JavaScript `Number(s)` on a note token, restricted to the decimal
integer strings this program produces; `none` models `NaN`. -/
def jsNumber (s : String) : Option Int :=
  match s.data with
  | '-' :: rest => (decNat rest).map (fun n => -(n : Int))
  | l => (decNat l).map (fun n => (n : Int))

/-- One `MidiWriter.NoteEvent` as constructed by the synthesizer
(`wait: "T" + wait` is kept as the tick count itself). -/
structure NoteEvent where
  pitch : List (Option Int)
  duration : ℚ
  velocity : Nat
  wait : Nat
deriving Repr, DecidableEq

/-- The observable content of the assembled track: name, tempo, time
signature and the ordered event list. -/
structure TrackOutput where
  trackName : String
  tempo : ℚ
  timeSignature : ℚ × Nat
  events : List NoteEvent
deriving Repr, DecidableEq

/-- JavaScript `s[i]`: `none` models `undefined`. -/
def charAt (s : String) (i : Nat) : Option Char := s.data.get? i

/-- `hits.filter(({pattern}) => pattern[step] === 'x').map(({note}) => Number(note))`. -/
def notesAtStep (hits : List DrumHit) (step : Nat) : List (Option Int) :=
  (hits.filter (fun h => charAt h.pattern step == some 'x')).map (fun h => jsNumber h.note)

/-- The `NoteEvent` constructed for a sounding step: `accents[step]` is
`undefined` (falsy) beyond the mask, hence `getD step false`. -/
def mkEvent (cfg : MidiOptions) (accents : List Bool) (nd : ℚ) (hits : List DrumHit)
    (step wait : Nat) : NoteEvent :=
  { pitch := notesAtStep hits step,
    duration := nd,
    velocity := if accents.getD step false then cfg.accentVelocity else cfg.normalVelocity,
    wait := wait }

/-- One iteration of the main loop, acting on the `(wait, events)` pair. -/
def synthStep (cfg : MidiOptions) (accents : List Bool) (nd : ℚ) (ticks : Nat)
    (hits : List DrumHit) (acc : Nat × List NoteEvent) (step : Nat) : Nat × List NoteEvent :=
  if notesAtStep hits step = [] then (acc.1 + ticks, acc.2)
  else (0, acc.2 ++ [mkEvent cfg accents nd hits step acc.1])

/-- The regex `\.[^/.]+$` applied to the reversed character list: strip a
final extension when one is present. -/
def stripExtRev (l : List Char) : Option (List Char) :=
  let ext := l.takeWhile (fun c => !(c = '.' || c = '/'))
  if ext = [] then none
  else
    match l.drop ext.length with
    | '.' :: rest => some rest
    | _ => none

/-- `filename.replace(/\.[^/.]+$/, "")`. -/
def stripExt (s : String) : String :=
  match stripExtRev s.data.reverse with
  | some rest => ⟨rest.reverse⟩
  | none => s

/-- Embedding of `convertPatternToMidi` (src/pat2midi.ts lines 109-153).
`getTick` is the serializer's opaque duration-to-ticks lookup
(`MidiWriter.Utils.getTickDuration`).  When `patternLength` is the
`Infinity` sentinel the source's loop never exits, so no track is
produced; that case is `none` here and is analysed separately through
the loop-state embedding below. -/
def convertPatternToMidi (p : ParsedPattern) (filename : String) (opts : MidiOptions)
    (getTick : ℚ → Nat) : Option TrackOutput :=
  match p.patternLength with
  | none => none
  | some n =>
    let nd : ℚ := if n % 8 = 0 then opts.noteDuration else opts.noteDuration / 2
    let ts : ℚ × Nat := if n % 8 = 0 then ((n : ℚ) / 4, 4) else ((n : ℚ), 8)
    let ticks := getTick nd
    let res := (List.range n).foldl (synthStep opts p.accents nd ticks p.hits) (0, [])
    some { trackName := stripExt filename, tempo := opts.bpm, timeSignature := ts,
           events := res.2 }

/-- Mutable state of the `for` loop in `convertPatternToMidi`, used to
reason about termination. -/
structure LoopState where
  step : Nat
  wait : Nat
  events : List NoteEvent
deriving Repr, DecidableEq

/-- The loop guard `step < patternLength`; against the `Infinity`
sentinel (`none`) the comparison is always true. -/
def loopCond (pl : Option Nat) (s : LoopState) : Bool :=
  match pl with
  | none => true
  | some n => s.step < n

/-- The loop body: both branches advance `step`; a silent step
accumulates `wait`, a sounding step emits an event and resets `wait`. -/
def loopBody (cfg : MidiOptions) (accents : List Bool) (nd : ℚ) (ticks : Nat)
    (hits : List DrumHit) (s : LoopState) : LoopState :=
  if notesAtStep hits s.step = [] then ⟨s.step + 1, s.wait + ticks, s.events⟩
  else ⟨s.step + 1, 0, s.events ++ [mkEvent cfg accents nd hits s.step s.wait]⟩

/-- The loop state after `k` iterations from the initial state
`step = 0, wait = 0, events = []`. -/
def runLoop (cfg : MidiOptions) (accents : List Bool) (nd : ℚ) (ticks : Nat)
    (hits : List DrumHit) : Nat → LoopState
  | 0 => ⟨0, 0, []⟩
  | k + 1 => loopBody cfg accents nd ticks hits (runLoop cfg accents nd ticks hits k)

/-- Classification of one line: the `DrumHit` it pushes, when it is an
accepted non-`AC` line. -/
def lineHit (line : String) : Option DrumHit :=
  match lineTokens line with
  | none => none
  | some (a, b) => if a = "AC" then none else some ⟨a, b⟩

/-- Classification of one line: the step string of an accepted `AC` line. -/
def lineAC (line : String) : Option String :=
  match lineTokens line with
  | none => none
  | some (a, b) => if a = "AC" then some b else none

/-- Classification of one line: the step string of any accepted line. -/
def linePat (line : String) : Option String :=
  match lineTokens line with
  | none => none
  | some (_, b) => some b

/-- The non-`AC` lines the parser accepts, in order. -/
def acceptedHits (c : String) : List DrumHit := (patLines c).filterMap lineHit

/-- The step-string lengths of all accepted lines, in order. -/
def acceptedLengths (c : String) : List Nat :=
  (patLines c).filterMap (fun l => (linePat l).map String.length)

/-- The step string of the last accepted `AC` line, if any. -/
def lastAC (c : String) : Option String := ((patLines c).filterMap lineAC).getLast?

/-- A step sounds exactly when some hit's symbol at that step is the
lowercase letter x, the only symbol the source's filter recognizes. -/
def stepSounds (hits : List DrumHit) (s : Nat) : Bool :=
  hits.any (fun h => charAt h.pattern s == some 'x')

/-- The event list the main loop produces: one event per sounding step, in
step order, whose wait is `ticks` times the number of silent steps since
the position `prev` just after the previously emitted step. -/
def expectedEvents (cfg : MidiOptions) (accents : List Bool) (nd : ℚ) (ticks : Nat)
    (hits : List DrumHit) : Nat → List Nat → List NoteEvent
  | _, [] => []
  | prev, s :: rest =>
      mkEvent cfg accents nd hits s (ticks * (s - prev)) ::
        expectedEvents cfg accents nd ticks hits (s + 1) rest

/-- The track `convertPatternToMidi` produces when `patternLength = n`,
spelled out as a record. -/
def trackFor (p : ParsedPattern) (f : String) (o : MidiOptions) (g : ℚ → Nat)
    (n : Nat) : TrackOutput :=
  { trackName := stripExt f, tempo := o.bpm,
    timeSignature := if n % 8 = 0 then ((n : ℚ) / 4, 4) else ((n : ℚ), 8),
    events := ((List.range n).foldl (synthStep o p.accents
      (if n % 8 = 0 then o.noteDuration else o.noteDuration / 2)
      (g (if n % 8 = 0 then o.noteDuration else o.noteDuration / 2)) p.hits) (0, [])).2 }

/-- A hit collected at one step by the spec's synthesizer: whether its
step symbol was a flam, and its pitch. -/
structure SpecStepHit where
  isFlam : Bool
  pitch : Option Int
deriving Repr, DecidableEq

/-- Modelled from the spec: the step-symbol classification of §4.1/§4.2 —
`X` or `F`, case-insensitively, marks a sounding step.  This flam-aware
classification is absent from src/pat2midi.ts, which recognizes only the
lowercase letter x. -/
def isHitSym : Option Char → Bool
  | some c => c == 'X' || c == 'x' || c == 'F' || c == 'f'
  | none => false

/-- Modelled from the spec: `F`/`f` marks a flam step (§4.2); absent from
src/pat2midi.ts. -/
def isFlamSym : Option Char → Bool
  | some c => c == 'F' || c == 'f'
  | none => false

/-- Modelled from the spec: "Collect all hits whose step symbol is X or F
(case-insensitive) into a list of \x7bisFlam, pitch\x7d" (§4.2); absent
from src/pat2midi.ts. -/
def specCollect (hits : List DrumHit) (step : Nat) : List SpecStepHit :=
  (hits.filter (fun h => isHitSym (charAt h.pattern step))).map
    (fun h => ⟨isFlamSym (charAt h.pattern step), jsNumber h.note⟩)

/-- Modelled from the spec: the flam grace note's tick position
`step*ticksPerNote - ticksPerFlam`, clamped to `ticksPerFlam` itself when
the difference would be negative (§4.2); absent from src/pat2midi.ts. -/
def flamTick (step tpn tpf : Nat) : Int :=
  if ((step * tpn : Nat) : Int) - (tpf : Int) < 0 then (tpf : Int)
  else ((step * tpn : Nat) : Int) - (tpf : Int)

/-- A grace-note event of the spec's flam rendering: pitch, absolute tick
position, velocity, and duration in ticks. -/
structure GraceEvent where
  pitch : Option Int
  tick : Int
  velocity : Nat
  duration : Int
deriving Repr, DecidableEq

/-- Modelled from the spec: "If noFlams is false: for every hit at this
step flagged isFlam, emit a separate short grace-note event before the
main event", with velocity `accentVelocity` when the step is accented else
`flamVelocity`, and duration one tick less than `ticksPerFlam` (§4.2);
absent from src/pat2midi.ts. -/
def specFlamEvents (noFlams accented : Bool) (accentVelocity flamVelocity : Nat)
    (tpn tpf step : Nat) (stepHits : List SpecStepHit) : List GraceEvent :=
  if noFlams then []
  else (stepHits.filter (fun sh => sh.isFlam)).map
    (fun sh => ⟨sh.pitch, flamTick step tpn tpf,
      if accented then accentVelocity else flamVelocity, (tpf : Int) - 1⟩)

/-- Modelled from the spec: the main event at a sounding step covers all
collected pitches, flam hits included as ordinary note-ons (§4.2); absent
from src/pat2midi.ts. -/
def specMainPitches (stepHits : List SpecStepHit) : List (Option Int) :=
  stepHits.map (fun sh => sh.pitch)

/-- Rendering of the accent mask back to a step string:
`true ↦ 'x'`, `false ↦ '-'`. -/
def renderMask (accents : List Bool) : List Char :=
  accents.map (fun b => if b then 'x' else '-')

/-- Rendering of one hit back to a line: key, one space, step string. -/
def renderHitLine (h : DrumHit) : List Char := h.note.data ++ ' ' :: h.pattern.data

/-- The lines of the rendered pattern: one per hit, plus an `AC` line when
the accent mask is nonempty. -/
def renderLines (p : ParsedPattern) : List (List Char) :=
  p.hits.map renderHitLine ++
    (if p.accents = [] then [] else ['A' :: 'C' :: ' ' :: renderMask p.accents])

/-- The parsed pattern rendered back to text, hit lines then the accent
line, joined by newlines. -/
def renderPattern (p : ParsedPattern) : String :=
  ⟨List.intercalate ['\n'] (renderLines p)⟩

theorem parseLine_patternLength (st : ParseState) (l : String) :
    (parseLine st l).patternLength =
      match linePat l with
      | none => st.patternLength
      | some pat => minInf st.patternLength pat.length := by
  unfold parseLine linePat
  cases h : lineTokens l with
  | none => rfl
  | some nb =>
    obtain ⟨a, b⟩ := nb
    by_cases hac : a = "AC" <;> simp [hac]

theorem parseLine_hits (st : ParseState) (l : String) :
    (parseLine st l).hits = st.hits ++ (lineHit l).toList := by
  unfold parseLine lineHit
  cases h : lineTokens l with
  | none => simp
  | some nb =>
    obtain ⟨a, b⟩ := nb
    by_cases hac : a = "AC" <;> simp [hac]

theorem parseLine_accents (st : ParseState) (l : String) :
    (parseLine st l).accents =
      match lineAC l with
      | none => st.accents
      | some pat => acMask pat := by
  unfold parseLine lineAC
  cases h : lineTokens l with
  | none => rfl
  | some nb =>
    obtain ⟨a, b⟩ := nb
    by_cases hac : a = "AC" <;> simp [hac]

theorem foldl_parseLine_patternLength (lines : List String) (st : ParseState) :
    (lines.foldl parseLine st).patternLength =
      (lines.filterMap linePat).foldl (fun o pat => minInf o pat.length) st.patternLength := by
  induction lines generalizing st with
  | nil => rfl
  | cons l rest ih =>
    rw [List.foldl_cons, ih, List.filterMap_cons]
    cases h : linePat l with
    | none => rw [parseLine_patternLength, h]
    | some pat => rw [parseLine_patternLength, h, List.foldl_cons]

theorem foldl_parseLine_hits (lines : List String) (st : ParseState) :
    (lines.foldl parseLine st).hits = st.hits ++ lines.filterMap lineHit := by
  induction lines generalizing st with
  | nil => simp
  | cons l rest ih =>
    rw [List.foldl_cons, ih, parseLine_hits, List.filterMap_cons]
    cases h : lineHit l with
    | none => simp
    | some hit => simp

theorem foldl_parseLine_accents (lines : List String) (st : ParseState) :
    (lines.foldl parseLine st).accents =
      match (lines.filterMap lineAC).getLast? with
      | none => st.accents
      | some pat => acMask pat := by
  induction lines generalizing st with
  | nil => rfl
  | cons l rest ih =>
    rw [List.foldl_cons, ih, List.filterMap_cons]
    cases h : lineAC l with
    | none => rw [parseLine_accents, h]
    | some pat =>
      rw [parseLine_accents, h]
      cases hrest : rest.filterMap lineAC with
      | nil => rfl
      | cons q qs =>
        rw [List.getLast?_cons_cons]
        cases hq : (q :: qs).getLast? with
        | none => simp [List.getLast?] at hq
        | some r => rfl

theorem foldl_minInf_spec (L : List Nat) (m : Nat) :
    ∃ r, L.foldl minInf (some m) = some r ∧ r ≤ m ∧ (r = m ∨ r ∈ L) ∧ ∀ x ∈ L, r ≤ x := by
  induction L generalizing m with
  | nil => exact ⟨m, rfl, le_refl m, Or.inl rfl, by simp⟩
  | cons a L ih =>
    obtain ⟨r, h1, h2, h3, h4⟩ := ih (min m a)
    refine ⟨r, ?_, h2.trans (min_le_left _ _), ?_, ?_⟩
    · simpa [minInf] using h1
    · rcases h3 with h | h
      · rcases min_choice m a with hm | hm
        · exact Or.inl (h.trans hm)
        · exact Or.inr (by rw [h, hm]; exact List.mem_cons_self a L)
      · exact Or.inr (List.mem_cons_of_mem _ h)
    · intro x hx
      rcases List.mem_cons.mp hx with rfl | hx
      · exact h2.trans (min_le_right _ _)
      · exact h4 x hx

theorem foldl_minInf_none (L : List Nat) :
    L.foldl minInf none = none ↔ L = [] := by
  cases L with
  | nil => simp
  | cons a L =>
    obtain ⟨r, h1, -, -, -⟩ := foldl_minInf_spec L a
    constructor
    · intro h
      rw [show List.foldl minInf none (a :: L) = L.foldl minInf (some a) from rfl, h1] at h
      exact absurd h (by simp)
    · intro h
      exact absurd h (by simp)

theorem parse_patternLength (c nm : String) :
    (parsePatFile c nm).patternLength = (acceptedLengths c).foldl minInf none := by
  show ((patLines c).foldl parseLine ⟨[], [], none⟩).patternLength = _
  rw [foldl_parseLine_patternLength]
  have : acceptedLengths c = ((patLines c).filterMap linePat).map String.length := by
    rw [acceptedLengths, List.map_filterMap]
  rw [this, List.foldl_map]

theorem parse_hits_eq (c nm : String) :
    (parsePatFile c nm).hits =
      (acceptedHits c).map
        (fun h => ⟨h.note, truncStr h.pattern (parsePatFile c nm).patternLength⟩) := by
  show (((patLines c).foldl parseLine ⟨[], [], none⟩).hits.map _) = _
  rw [foldl_parseLine_hits]
  rfl

theorem parse_accents_eq (c nm : String) :
    (parsePatFile c nm).accents =
      truncList
        (match lastAC c with
         | none => []
         | some pat => acMask pat)
        (parsePatFile c nm).patternLength := by
  show truncList (((patLines c).foldl parseLine ⟨[], [], none⟩).accents) _ = _
  rw [foldl_parseLine_accents]
  rw [lastAC]
  cases h : ((patLines c).filterMap lineAC).getLast? with
  | none => rfl
  | some pat => rfl

theorem lineHit_linePat (l : String) (h : DrumHit) (hh : lineHit l = some h) :
    linePat l = some h.pattern := by
  unfold lineHit at hh
  unfold linePat
  cases ht : lineTokens l with
  | none => rw [ht] at hh; exact absurd hh (by simp)
  | some nb =>
    obtain ⟨a, b⟩ := nb
    rw [ht] at hh
    by_cases hac : a = "AC"
    · simp [hac] at hh
    · simp only [hac, if_false, Option.some.injEq] at hh
      simp [← hh]

theorem lineAC_linePat (l : String) (pat : String) (hh : lineAC l = some pat) :
    linePat l = some pat := by
  unfold lineAC at hh
  unfold linePat
  cases ht : lineTokens l with
  | none => rw [ht] at hh; exact absurd hh (by simp)
  | some nb =>
    obtain ⟨a, b⟩ := nb
    rw [ht] at hh
    by_cases hac : a = "AC"
    · simp only [hac, if_true, Option.some.injEq] at hh
      simp [hh]
    · simp [hac] at hh

theorem acceptedHits_length_mem (c : String) (h : DrumHit) (hm : h ∈ acceptedHits c) :
    h.pattern.length ∈ acceptedLengths c := by
  obtain ⟨l, hl, hlh⟩ := List.mem_filterMap.mp hm
  exact List.mem_filterMap.mpr ⟨l, hl, by rw [lineHit_linePat l h hlh]; rfl⟩

theorem parse_patternLength_none_iff (c nm : String) :
    (parsePatFile c nm).patternLength = none ↔ acceptedLengths c = [] := by
  rw [parse_patternLength]
  exact foldl_minInf_none _

theorem parse_patternLength_min (c nm : String) (k : Nat)
    (hk : (parsePatFile c nm).patternLength = some k) :
    k ∈ acceptedLengths c ∧ ∀ m ∈ acceptedLengths c, k ≤ m := by
  rw [parse_patternLength] at hk
  cases hL : acceptedLengths c with
  | nil => rw [hL] at hk; exact absurd hk (by simp)
  | cons a L =>
    rw [hL] at hk
    obtain ⟨r, h1, h2, h3, h4⟩ := foldl_minInf_spec L a
    rw [show (a :: L).foldl minInf none = L.foldl minInf (some a) from rfl, h1] at hk
    obtain rfl : k = r := (Option.some.inj hk).symm
    constructor
    · rcases h3 with rfl | h
      · exact List.mem_cons_self _ _
      · exact List.mem_cons_of_mem _ h
    · intro m hm
      rcases List.mem_cons.mp hm with rfl | hm
      · exact h2
      · exact h4 m hm

theorem truncList_length_le {α : Type} (l : List α) (k : Nat) :
    (truncList l (some k)).length ≤ k := by
  show (l.take k).length ≤ k
  rw [List.length_take]
  exact min_le_left _ _

theorem acceptedHits_of_no_lengths (c : String) (hL : acceptedLengths c = []) :
    acceptedHits c = [] := by
  refine List.eq_nil_iff_forall_not_mem.mpr (fun h hm => ?_)
  have := acceptedHits_length_mem c h hm
  rw [hL] at this
  exact absurd this (by simp)

/-- C3 (corrected): for every input, `patternLength` equals the minimum
step-string length among accepted lines when at least one line is accepted;
with zero accepted lines it stays the code's non-finite sentinel
(`Infinity`, modelled as `none`) rather than resolving to `0`. -/
theorem c3_patternLength_minimum (c nm : String) :
    ((parsePatFile c nm).patternLength = none ↔ acceptedLengths c = []) ∧
    (∀ k, (parsePatFile c nm).patternLength = some k →
      k ∈ acceptedLengths c ∧ ∀ m ∈ acceptedLengths c, k ≤ m) :=
  ⟨parse_patternLength_none_iff c nm, fun k hk => parse_patternLength_min c nm k hk⟩

/-- C3 witness: the theorem applied at a concrete two-line input whose
minimum step-string length is 2. -/
theorem c3_patternLength_minimum_witness :
    2 ∈ acceptedLengths "36 xxx\n37 xx" ∧ ∀ m ∈ acceptedLengths "36 xxx\n37 xx", 2 ≤ m :=
  (c3_patternLength_minimum "36 xxx\n37 xx" "f").2 2 (by decide)

/-- C3 counterexample: on an input with zero accepted lines the code returns
the non-finite sentinel (`Infinity`, modelled `none`), not `0`, contrary to
the claim that the sentinel never escapes. -/
theorem c3_counterexample :
    (parsePatFile "" "f").patternLength = none ∧
    ¬(parsePatFile "" "f").patternLength = some 0 ∧
    (parsePatFile "" "f").hits = [] ∧ (parsePatFile "" "f").accents = [] := by
  decide

/-- C4 (code_bug): the source resolves no drum names and reports no
line-level errors: the README-documented name `CH` and the unknown key `ZZ`
are both kept in the hit list verbatim, and `Number` applied to them at
synthesis time yields `NaN` (modelled `none`), so the corresponding events
carry `NaN` pitches instead of the line being excluded. -/
theorem c4_no_name_resolution :
    (parsePatFile "CH x---\nZZ x---\n36 x---" "f").hits =
      [⟨"CH", "x---"⟩, ⟨"ZZ", "x---"⟩, ⟨"36", "x---"⟩] ∧
    jsNumber "CH" = none ∧ jsNumber "ZZ" = none ∧ jsNumber "36" = some 36 ∧
    notesAtStep (parsePatFile "CH x---\nZZ x---\n36 x---" "f").hits 0 =
      [none, none, some 36] := by
  decide

/-- C6 (confirmed): after parsing, every hit's step string has length exactly
`patternLength`, the accent mask's length is at most `patternLength`, and
every hit's step string is a prefix of the accepted original (lines are
truncated, never padded); with the non-finite sentinel there are no hits. -/
theorem c6_normalized_lengths (c nm : String) :
    (∀ h, h ∈ (parsePatFile c nm).hits →
      some h.pattern.length = (parsePatFile c nm).patternLength) ∧
    (∀ k, (parsePatFile c nm).patternLength = some k →
      (parsePatFile c nm).accents.length ≤ k) ∧
    ((parsePatFile c nm).patternLength = none → (parsePatFile c nm).hits = []) ∧
    (∀ h, h ∈ (parsePatFile c nm).hits →
      ∃ h0, h0 ∈ acceptedHits c ∧ h.note = h0.note ∧
        ∃ t, h0.pattern.data = h.pattern.data ++ t) := by
  refine ⟨?_, ?_, ?_, ?_⟩
  · intro h hm
    rw [parse_hits_eq] at hm
    obtain ⟨h0, hh0, rfl⟩ := List.mem_map.mp hm
    cases hpl : (parsePatFile c nm).patternLength with
    | none =>
      have hL := (parse_patternLength_none_iff c nm).mp hpl
      have := acceptedHits_length_mem c h0 hh0
      rw [hL] at this
      exact absurd this (by simp)
    | some k =>
      have hmin := (parse_patternLength_min c nm k hpl).2 _ (acceptedHits_length_mem c h0 hh0)
      have hmin' : k ≤ h0.pattern.data.length := hmin
      show some (h0.pattern.data.take k).length = some k
      rw [List.length_take, min_eq_left hmin']
  · intro k hk
    rw [parse_accents_eq, hk]
    exact truncList_length_le _ k
  · intro hpl
    rw [parse_hits_eq, acceptedHits_of_no_lengths c ((parse_patternLength_none_iff c nm).mp hpl)]
    rfl
  · intro h hm
    rw [parse_hits_eq] at hm
    obtain ⟨h0, hh0, rfl⟩ := List.mem_map.mp hm
    refine ⟨h0, hh0, rfl, ?_⟩
    cases hpl : (parsePatFile c nm).patternLength with
    | none =>
      refine ⟨[], ?_⟩
      rw [List.append_nil]
      rfl
    | some k =>
      refine ⟨h0.pattern.data.drop k, ?_⟩
      exact (List.take_append_drop k h0.pattern.data).symm

/-- C6 witness: the theorem applied at a concrete input where the first
hit's truncated step string has the pattern length 2. -/
theorem c6_normalized_lengths_witness :
    some ((⟨"36", "xx"⟩ : DrumHit).pattern.length) =
      (parsePatFile "36 xxx\n37 xx" "f").patternLength :=
  (c6_normalized_lengths "36 xxx\n37 xx" "f").1 ⟨"36", "xx"⟩ (by decide)

/-- C7 (corrected): the accent line is matched case-sensitively
(`note === "AC"`) and only the lowercase character `x` maps to `true`
(`X` maps to `false`); the mask is the one of the last accepted `AC` line
(overwrite, no merge), truncated to `patternLength`. -/
theorem c7_accent_mask (c nm : String) :
    (parsePatFile c nm).accents =
      truncList
        (match lastAC c with
         | none => []
         | some pat => pat.data.map (fun ch => ch == 'x'))
        (parsePatFile c nm).patternLength := by
  rw [parse_accents_eq]
  cases lastAC c <;> rfl

/-- C7 counterexample: a lowercase key `ac` is not recognized as the accent
line (it becomes an ordinary hit), and an uppercase `X` on an `AC` line maps
to `false`, while the claim requires case-insensitive key matching and
`X ↦ true`. -/
theorem c7_counterexample :
    (parsePatFile "ac x" "f").accents = [] ∧
    (parsePatFile "ac x" "f").hits = [⟨"ac", "x"⟩] ∧
    (parsePatFile "AC X" "f").accents = [false] ∧
    (parsePatFile "AC X" "f").accents ≠ [true] := by
  decide

theorem notesAtStep_nil_iff (hits : List DrumHit) (s : Nat) :
    notesAtStep hits s = [] ↔ stepSounds hits s = false := by
  rw [notesAtStep, stepSounds, List.map_eq_nil_iff, List.filter_eq_nil_iff]
  rw [← Bool.not_eq_true, List.any_eq_true]
  constructor
  · intro hno ⟨x, hx, hpx⟩
    exact hno x hx hpx
  · intro hno x hx hpx
    exact hno ⟨x, hx, hpx⟩

theorem foldl_synthStep_range (cfg : MidiOptions) (accents : List Bool) (nd : ℚ)
    (ticks : Nat) (hits : List DrumHit) :
    ∀ (k a prev : Nat) (evs : List NoteEvent), prev ≤ a →
      ((List.range' a k).foldl (synthStep cfg accents nd ticks hits)
          (ticks * (a - prev), evs)).2
        = evs ++ expectedEvents cfg accents nd ticks hits prev
            ((List.range' a k).filter (stepSounds hits)) := by
  intro k
  induction k with
  | zero =>
    intro a prev evs _
    simp [expectedEvents]
  | succ k ih =>
    intro a prev evs hpa
    rw [List.range'_succ, List.foldl_cons, List.filter_cons]
    cases hs : stepSounds hits a with
    | false =>
      have hnil : notesAtStep hits a = [] := (notesAtStep_nil_iff hits a).mpr hs
      rw [show synthStep cfg accents nd ticks hits (ticks * (a - prev), evs) a
            = (ticks * (a - prev) + ticks, evs) by rw [synthStep, if_pos hnil]]
      have harith : ticks * (a - prev) + ticks = ticks * (a + 1 - prev) := by
        rw [Nat.succ_sub hpa, Nat.mul_succ]
      rw [harith, ih (a + 1) prev evs (hpa.trans (Nat.le_succ a))]
      simp
    | true =>
      have hnn : ¬notesAtStep hits a = [] := by
        intro hnil
        rw [(notesAtStep_nil_iff hits a).mp hnil] at hs
        exact Bool.false_ne_true hs
      rw [show synthStep cfg accents nd ticks hits (ticks * (a - prev), evs) a
            = (0, evs ++ [mkEvent cfg accents nd hits a (ticks * (a - prev))]) by
          rw [synthStep, if_neg hnn]]
      rw [show (0 : Nat) = ticks * (a + 1 - (a + 1)) by simp]
      rw [ih (a + 1) (a + 1) _ (le_refl (a + 1))]
      simp [expectedEvents]

theorem convert_events (p : ParsedPattern) (f : String) (o : MidiOptions) (g : ℚ → Nat)
    (n : Nat) (h : p.patternLength = some n) :
    (convertPatternToMidi p f o g).map TrackOutput.events =
      some (expectedEvents o p.accents
        (if n % 8 = 0 then o.noteDuration else o.noteDuration / 2)
        (g (if n % 8 = 0 then o.noteDuration else o.noteDuration / 2)) p.hits 0
        ((List.range n).filter (stepSounds p.hits))) := by
  obtain ⟨hits, accents, pl⟩ := p
  obtain rfl : pl = some n := h
  show some ((List.range n).foldl (synthStep o accents _ _ hits) (0, [])).2 = _
  have hfold := foldl_synthStep_range o accents
    (if n % 8 = 0 then o.noteDuration else o.noteDuration / 2)
    (g (if n % 8 = 0 then o.noteDuration else o.noteDuration / 2)) hits n 0 0 []
    (le_refl 0)
  rw [Nat.sub_self, Nat.mul_zero] at hfold
  rw [List.range_eq_range', hfold]
  rfl

theorem expectedEvents_duration (cfg : MidiOptions) (accents : List Bool) (nd : ℚ)
    (ticks : Nat) (hits : List DrumHit) :
    ∀ (ss : List Nat) (prev : Nat) (e : NoteEvent),
      e ∈ expectedEvents cfg accents nd ticks hits prev ss → e.duration = nd := by
  intro ss
  induction ss with
  | nil =>
    intro prev e he
    exact absurd he (by simp [expectedEvents])
  | cons s rest ih =>
    intro prev e he
    rw [expectedEvents] at he
    rcases List.mem_cons.mp he with rfl | he
    · rfl
    · exact ih (s + 1) e he

theorem expectedEvents_pitch_velocity (cfg : MidiOptions) (accents : List Bool) (nd : ℚ)
    (ticks : Nat) (hits : List DrumHit) :
    ∀ (ss : List Nat) (prev : Nat),
      (expectedEvents cfg accents nd ticks hits prev ss).map (fun e => (e.pitch, e.velocity))
        = ss.map (fun s => (notesAtStep hits s,
            if accents.getD s false then cfg.accentVelocity else cfg.normalVelocity)) := by
  intro ss
  induction ss with
  | nil => intro prev; rfl
  | cons s rest ih =>
    intro prev
    rw [expectedEvents, List.map_cons, List.map_cons, ih (s + 1)]
    rfl

/-- C2 (corrected): a step contributes an emitted event if and only if some
hit's symbol at that step is exactly the lowercase letter x (uppercase X and
the flam symbols are treated as silence); the emitted events are those
sounding steps in order, each silent step accumulating `ticksPerNote` into
the wait of the next emitted event, which then resets the accumulator. -/
theorem c2_events_exactly_sounding_steps (p : ParsedPattern) (f : String) (o : MidiOptions)
    (g : ℚ → Nat) (n : Nat) (h : p.patternLength = some n) :
    (convertPatternToMidi p f o g).map TrackOutput.events =
      some (expectedEvents o p.accents
        (if n % 8 = 0 then o.noteDuration else o.noteDuration / 2)
        (g (if n % 8 = 0 then o.noteDuration else o.noteDuration / 2)) p.hits 0
        ((List.range n).filter (stepSounds p.hits))) ∧
    ∀ s, stepSounds p.hits s = true ↔ ∃ hh ∈ p.hits, charAt hh.pattern s = some 'x' := by
  refine ⟨convert_events p f o g n h, fun s => ?_⟩
  rw [stepSounds, List.any_eq_true]
  constructor
  · intro ⟨hh, hm, hx⟩
    exact ⟨hh, hm, by simpa using hx⟩
  · intro ⟨hh, hm, hx⟩
    exact ⟨hh, hm, by simpa using hx⟩

/-- C2 witness: the theorem applied to the concrete pattern `36 x-` with a
constant tick lookup. -/
theorem c2_events_exactly_sounding_steps_witness :
    (convertPatternToMidi (parsePatFile "36 x-" "f") "t" DEFAULT_CONFIG
        (fun _ => 32)).map TrackOutput.events =
      some (expectedEvents DEFAULT_CONFIG (parsePatFile "36 x-" "f").accents
        (if 2 % 8 = 0 then DEFAULT_CONFIG.noteDuration else DEFAULT_CONFIG.noteDuration / 2)
        ((fun _ => 32)
          (if 2 % 8 = 0 then DEFAULT_CONFIG.noteDuration else DEFAULT_CONFIG.noteDuration / 2))
        (parsePatFile "36 x-" "f").hits 0
        ((List.range 2).filter (stepSounds (parsePatFile "36 x-" "f").hits))) ∧
    ∀ s, stepSounds (parsePatFile "36 x-" "f").hits s = true ↔
      ∃ hh ∈ (parsePatFile "36 x-" "f").hits, charAt hh.pattern s = some 'x' :=
  c2_events_exactly_sounding_steps (parsePatFile "36 x-" "f") "t" DEFAULT_CONFIG
    (fun _ => 32) 2 (by decide)

/-- C2 counterexample: at step 0 the only hit carries the uppercase letter X,
for which the claim requires an emitted event, yet the code emits nothing
because its filter matches only the lowercase letter x. -/
theorem c2_counterexample :
    charAt ((⟨"36", "X"⟩ : DrumHit).pattern) 0 = some 'X' ∧
    (parsePatFile "36 X" "f").hits = [⟨"36", "X"⟩] ∧
    (parsePatFile "36 X" "f").patternLength = some 1 ∧
    (convertPatternToMidi (parsePatFile "36 X" "f") "t" DEFAULT_CONFIG (fun _ => 32)).map
      TrackOutput.events = some [] := by
  decide

theorem convert_timeSignature (p : ParsedPattern) (f : String) (o : MidiOptions)
    (g : ℚ → Nat) (n : Nat) (h : p.patternLength = some n) :
    (convertPatternToMidi p f o g).map TrackOutput.timeSignature =
      some (if n % 8 = 0 then ((n : ℚ) / 4, 4) else ((n : ℚ), 8)) := by
  obtain ⟨hits, accents, pl⟩ := p
  obtain rfl : pl = some n := h
  rfl

/-- C5 (confirmed): when `patternLength` is a multiple of 8 the time
signature is `(patternLength/4, 4)` and the note duration is unmodified;
otherwise the time signature is `(patternLength, 8)` and the note duration
is halved, the halved value being used both for the per-step tick lookup
and as every emitted event's duration. -/
theorem c5_time_signature (p : ParsedPattern) (f : String) (o : MidiOptions) (g : ℚ → Nat)
    (n : Nat) (t : TrackOutput) (h : p.patternLength = some n)
    (ht : convertPatternToMidi p f o g = some t) :
    (n % 8 = 0 → t.timeSignature = ((n : ℚ) / 4, 4) ∧
      (∀ e ∈ t.events, e.duration = o.noteDuration) ∧
      t.events = expectedEvents o p.accents o.noteDuration (g o.noteDuration) p.hits 0
        ((List.range n).filter (stepSounds p.hits))) ∧
    (n % 8 ≠ 0 → t.timeSignature = ((n : ℚ), 8) ∧
      (∀ e ∈ t.events, e.duration = o.noteDuration / 2) ∧
      t.events = expectedEvents o p.accents (o.noteDuration / 2) (g (o.noteDuration / 2))
        p.hits 0 ((List.range n).filter (stepSounds p.hits))) := by
  have hev := convert_events p f o g n h
  have hts := convert_timeSignature p f o g n h
  rw [ht, Option.map_some'] at hev hts
  replace hev := Option.some.inj hev
  replace hts := Option.some.inj hts
  by_cases h8 : n % 8 = 0
  · rw [if_pos h8] at hev
    rw [if_pos h8] at hts
    exact ⟨fun _ => ⟨hts, fun e he => expectedEvents_duration o p.accents o.noteDuration _
      p.hits _ _ e (hev ▸ he), hev⟩, fun hn => absurd h8 hn⟩
  · rw [if_neg h8] at hev
    rw [if_neg h8] at hts
    exact ⟨fun hn => absurd hn h8, fun _ => ⟨hts, fun e he =>
      expectedEvents_duration o p.accents (o.noteDuration / 2) _
        p.hits _ _ e (hev ▸ he), hev⟩⟩

theorem convert_eq_trackFor (p : ParsedPattern) (f : String) (o : MidiOptions)
    (g : ℚ → Nat) (n : Nat) (h : p.patternLength = some n) :
    convertPatternToMidi p f o g = some (trackFor p f o g n) := by
  obtain ⟨hits, accents, pl⟩ := p
  obtain rfl : pl = some n := h
  rfl

/-- C5 witness: the theorem applied to the concrete 8-step pattern
`36 x-x-x-x-`, whose length is a multiple of 8. -/
theorem c5_time_signature_witness :
    (8 % 8 = 0 →
      (trackFor (parsePatFile "36 x-x-x-x-" "f") "t" DEFAULT_CONFIG (fun _ => 32) 8).timeSignature
          = (((8 : Nat) : ℚ) / 4, 4) ∧
      (∀ e ∈ (trackFor (parsePatFile "36 x-x-x-x-" "f") "t" DEFAULT_CONFIG (fun _ => 32) 8).events,
        e.duration = DEFAULT_CONFIG.noteDuration) ∧
      (trackFor (parsePatFile "36 x-x-x-x-" "f") "t" DEFAULT_CONFIG (fun _ => 32) 8).events =
        expectedEvents DEFAULT_CONFIG (parsePatFile "36 x-x-x-x-" "f").accents
          DEFAULT_CONFIG.noteDuration ((fun _ => 32) DEFAULT_CONFIG.noteDuration)
          (parsePatFile "36 x-x-x-x-" "f").hits 0
          ((List.range 8).filter (stepSounds (parsePatFile "36 x-x-x-x-" "f").hits))) ∧
    (8 % 8 ≠ 0 →
      (trackFor (parsePatFile "36 x-x-x-x-" "f") "t" DEFAULT_CONFIG (fun _ => 32) 8).timeSignature
          = (((8 : Nat) : ℚ), 8) ∧
      (∀ e ∈ (trackFor (parsePatFile "36 x-x-x-x-" "f") "t" DEFAULT_CONFIG (fun _ => 32) 8).events,
        e.duration = DEFAULT_CONFIG.noteDuration / 2) ∧
      (trackFor (parsePatFile "36 x-x-x-x-" "f") "t" DEFAULT_CONFIG (fun _ => 32) 8).events =
        expectedEvents DEFAULT_CONFIG (parsePatFile "36 x-x-x-x-" "f").accents
          (DEFAULT_CONFIG.noteDuration / 2) ((fun _ => 32) (DEFAULT_CONFIG.noteDuration / 2))
          (parsePatFile "36 x-x-x-x-" "f").hits 0
          ((List.range 8).filter (stepSounds (parsePatFile "36 x-x-x-x-" "f").hits))) :=
  c5_time_signature (parsePatFile "36 x-x-x-x-" "f") "t" DEFAULT_CONFIG (fun _ => 32) 8
    (trackFor (parsePatFile "36 x-x-x-x-" "f") "t" DEFAULT_CONFIG (fun _ => 32) 8)
    (by decide)
    (convert_eq_trackFor (parsePatFile "36 x-x-x-x-" "f") "t" DEFAULT_CONFIG (fun _ => 32) 8
      (by decide))

/-- C8 (confirmed): every emitted event's velocity is `accentVelocity` when
the accent mask holds `true` at its step and `normalVelocity` otherwise; a
lookup at an index beyond the mask's length (in particular against the
empty mask left by an absent accent line) counts as not accented. -/
theorem c8_velocity (p : ParsedPattern) (f : String) (o : MidiOptions) (g : ℚ → Nat)
    (n : Nat) (t : TrackOutput) (h : p.patternLength = some n)
    (ht : convertPatternToMidi p f o g = some t) :
    t.events.map (fun e => (e.pitch, e.velocity)) =
      ((List.range n).filter (stepSounds p.hits)).map
        (fun s => (notesAtStep p.hits s,
          if p.accents.getD s false then o.accentVelocity else o.normalVelocity)) ∧
    ∀ s, p.accents.length ≤ s → p.accents.getD s false = false := by
  have hev := convert_events p f o g n h
  rw [ht, Option.map_some'] at hev
  replace hev := Option.some.inj hev
  refine ⟨?_, ?_⟩
  · rw [hev, expectedEvents_pitch_velocity]
  · intro s hs
    exact List.getD_eq_default _ _ hs

/-- C8 witness: the theorem applied to a concrete pattern with accent mask
`[false, true]`; step 0 gets `normalVelocity` and step 1 gets
`accentVelocity`. -/
theorem c8_velocity_witness :
    (trackFor (parsePatFile "36 xx\nAC -x" "f") "t" DEFAULT_CONFIG (fun _ => 32) 2).events.map
        (fun e => (e.pitch, e.velocity)) =
      ((List.range 2).filter (stepSounds (parsePatFile "36 xx\nAC -x" "f").hits)).map
        (fun s => (notesAtStep (parsePatFile "36 xx\nAC -x" "f").hits s,
          if (parsePatFile "36 xx\nAC -x" "f").accents.getD s false
          then DEFAULT_CONFIG.accentVelocity else DEFAULT_CONFIG.normalVelocity)) ∧
    ∀ s, (parsePatFile "36 xx\nAC -x" "f").accents.length ≤ s →
      (parsePatFile "36 xx\nAC -x" "f").accents.getD s false = false :=
  c8_velocity (parsePatFile "36 xx\nAC -x" "f") "t" DEFAULT_CONFIG (fun _ => 32) 2
    (trackFor (parsePatFile "36 xx\nAC -x" "f") "t" DEFAULT_CONFIG (fun _ => 32) 2)
    (by decide)
    (convert_eq_trackFor (parsePatFile "36 xx\nAC -x" "f") "t" DEFAULT_CONFIG (fun _ => 32) 2
      (by decide))

theorem runLoop_step (cfg : MidiOptions) (accents : List Bool) (nd : ℚ) (ticks : Nat)
    (hits : List DrumHit) (k : Nat) :
    (runLoop cfg accents nd ticks hits k).step = k := by
  induction k with
  | zero => rfl
  | succ k ih =>
    rw [runLoop, loopBody]
    by_cases hnil : notesAtStep hits (runLoop cfg accents nd ticks hits k).step = []
    · rw [if_pos hnil]
      show (runLoop cfg accents nd ticks hits k).step + 1 = k + 1
      rw [ih]
    · rw [if_neg hnil]
      show (runLoop cfg accents nd ticks hits k).step + 1 = k + 1
      rw [ih]

/-- C10 (confirmed): the main loop's guard eventually fails exactly when
`patternLength` is finite; with `patternLength = n` the guard first fails
after exactly `n` iterations, and with the non-finite sentinel (`Infinity`,
zero accepted lines) the guard holds forever, so finiteness is a necessary
precondition for termination. -/
theorem c10_loop_termination (p : ParsedPattern) (cfg : MidiOptions) (nd : ℚ) (ticks : Nat) :
    ((∃ k, loopCond p.patternLength (runLoop cfg p.accents nd ticks p.hits k) = false) ↔
      p.patternLength ≠ none) ∧
    (∀ n, p.patternLength = some n →
      ∀ k, (loopCond p.patternLength (runLoop cfg p.accents nd ticks p.hits k) = false ↔
        n ≤ k)) := by
  constructor
  · cases hpl : p.patternLength with
    | none =>
      constructor
      · intro ⟨k, hk⟩
        rw [loopCond] at hk
        exact absurd hk (by simp)
      · intro hne
        exact absurd rfl hne
    | some n =>
      constructor
      · intro _
        exact Option.some_ne_none n
      · intro _
        refine ⟨n, ?_⟩
        rw [loopCond]
        simp [runLoop_step]
  · intro n hn k
    rw [hn, loopCond, runLoop_step]
    simp

/-- C10 witness: for the concrete two-step pattern `36 x-` the guard fails
after 2 iterations. -/
theorem c10_loop_termination_witness :
    loopCond (parsePatFile "36 x-" "f").patternLength
      (runLoop DEFAULT_CONFIG (parsePatFile "36 x-" "f").accents 16 32
        (parsePatFile "36 x-" "f").hits 2) = false ↔ 2 ≤ 2 :=
  (c10_loop_termination (parsePatFile "36 x-" "f") DEFAULT_CONFIG 16 32).2 2 (by decide) 2

theorem isFlamSym_isHitSym (oc : Option Char) (h : isFlamSym oc = true) :
    isHitSym oc = true := by
  cases oc with
  | none => exact absurd h (by simp [isFlamSym])
  | some c =>
    rw [isFlamSym] at h
    rw [isHitSym]
    rcases Bool.or_eq_true_iff.mp h with hF | hf
    · simp [hF]
    · simp [hf]

/-- C1 (confirmed, spec-modelled): with `noFlams = false`, every hit whose
step symbol is the flam symbol (`F`/`f`) yields a separate grace-note
event before the main event at tick `step*ticksPerNote - ticksPerFlam`;
that position is never negative, and at step 0 it is clamped to
`ticksPerFlam` itself (not to 0); the hit's pitch still appears among the
main event's pitches, so a flam never suppresses the main hit. -/
theorem c1_flam_clamp (hits : List DrumHit) (h : DrumHit) (step tpn tpf : Nat)
    (accented : Bool) (aV fV : Nat)
    (hmem : h ∈ hits) (hflam : isFlamSym (charAt h.pattern step) = true)
    (htpf : 0 < tpf) :
    (∃ e ∈ specFlamEvents false accented aV fV tpn tpf step (specCollect hits step),
      e.pitch = jsNumber h.note ∧ e.tick = flamTick step tpn tpf) ∧
    0 ≤ flamTick step tpn tpf ∧
    (step = 0 → flamTick 0 tpn tpf = (tpf : Int) ∧ flamTick 0 tpn tpf ≠ 0) ∧
    jsNumber h.note ∈ specMainPitches (specCollect hits step) := by
  have hhit : isHitSym (charAt h.pattern step) = true := isFlamSym_isHitSym _ hflam
  have hcol : (⟨isFlamSym (charAt h.pattern step), jsNumber h.note⟩ : SpecStepHit)
      ∈ specCollect hits step := by
    rw [specCollect]
    exact List.mem_map.mpr ⟨h, List.mem_filter.mpr ⟨hmem, hhit⟩, rfl⟩
  refine ⟨?_, ?_, ?_, ?_⟩
  · refine ⟨⟨jsNumber h.note, flamTick step tpn tpf,
      if accented then aV else fV, (tpf : Int) - 1⟩, ?_, rfl, rfl⟩
    rw [specFlamEvents, if_neg (Bool.false_ne_true)]
    refine List.mem_map.mpr ⟨⟨isFlamSym (charAt h.pattern step), jsNumber h.note⟩, ?_, ?_⟩
    · exact List.mem_filter.mpr ⟨hcol, hflam⟩
    · rw [hflam]
  · rw [flamTick]
    by_cases hneg : ((step * tpn : Nat) : Int) - (tpf : Int) < 0
    · rw [if_pos hneg]
      exact Int.ofNat_nonneg tpf
    · rw [if_neg hneg]
      exact le_of_not_lt hneg
  · intro hstep
    have hclamp : flamTick 0 tpn tpf = (tpf : Int) := by
      rw [flamTick, if_pos]
      show ((0 * tpn : Nat) : Int) - (tpf : Int) < 0
      rw [Nat.zero_mul]
      simpa using htpf
    refine ⟨hclamp, ?_⟩
    rw [hclamp]
    simpa using Nat.pos_iff_ne_zero.mp htpf
  · rw [specMainPitches]
    exact List.mem_map.mpr ⟨_, hcol, rfl⟩

/-- C1 witness: a single flam hit at step 0 with `ticksPerFlam = 4`; the
grace note lands at tick 4, not at a negative position and not at 0. -/
theorem c1_flam_clamp_witness :
    (∃ e ∈ specFlamEvents false false 80 40 32 4 0 (specCollect [⟨"36", "F"⟩] 0),
      e.pitch = jsNumber "36" ∧ e.tick = flamTick 0 32 4) ∧
    0 ≤ flamTick 0 32 4 ∧
    (0 = 0 → flamTick 0 32 4 = ((4 : Nat) : Int) ∧ flamTick 0 32 4 ≠ 0) ∧
    jsNumber "36" ∈ specMainPitches (specCollect [⟨"36", "F"⟩] 0) :=
  c1_flam_clamp [⟨"36", "F"⟩] ⟨"36", "F"⟩ 0 32 4 false 80 40
    (by decide) (by decide) (by decide)

theorem dropWhile_eq_self_of_head (p : Char → Bool) (l : List Char)
    (h : ∀ ch, l.head? = some ch → p ch = false) : l.dropWhile p = l := by
  cases l with
  | nil => rfl
  | cons a t =>
    rw [List.dropWhile_cons, h a rfl]
    simp

theorem jsTrim_eq_self (l : List Char)
    (h1 : ∀ ch, l.head? = some ch → isWs ch = false)
    (h2 : ∀ ch, l.getLast? = some ch → isWs ch = false) : jsTrim l = l := by
  rw [jsTrim, dropWhile_eq_self_of_head _ _ h1, dropWhile_eq_self_of_head,
    List.reverse_reverse]
  intro ch hc
  rw [List.head?_reverse] at hc
  exact h2 ch hc

theorem getLast?_append_right (l₁ l₂ : List Char) (h : l₂ ≠ []) :
    (l₁ ++ l₂).getLast? = l₂.getLast? := by
  rw [← List.head?_reverse, ← List.head?_reverse, List.reverse_append]
  cases hrev : l₂.reverse with
  | nil => exact absurd (by simpa using hrev) h
  | cons a t => rfl

theorem intercalate_singleton_line (a : List Char) : List.intercalate ['\n'] [a] = a := by
  simp [List.intercalate]

theorem intercalate_cons₂ (a b : List Char) (t : List (List Char)) :
    List.intercalate ['\n'] (a :: b :: t) =
      a ++ '\n' :: List.intercalate ['\n'] (b :: t) := by
  simp [List.intercalate, List.intersperse_cons_cons]

theorem intercalate_ne_nil (a : List Char) (t : List (List Char)) (ha : a ≠ []) :
    List.intercalate ['\n'] (a :: t) ≠ [] := by
  cases t with
  | nil => rw [intercalate_singleton_line]; exact ha
  | cons b t =>
    rw [intercalate_cons₂]
    cases a with
    | nil => exact absurd rfl ha
    | cons c cs => simp

theorem head?_append_left (l₁ l₂ : List Char) (h : l₁ ≠ []) :
    (l₁ ++ l₂).head? = l₁.head? := by
  cases l₁ with
  | nil => exact absurd rfl h
  | cons a t => rfl

theorem intercalate_head_ok (L : List (List Char))
    (hg : ∀ l ∈ L, l ≠ [] ∧ ∀ ch, l.head? = some ch → isWs ch = false) :
    ∀ ch, (List.intercalate ['\n'] L).head? = some ch → isWs ch = false := by
  cases L with
  | nil =>
    intro ch hc
    exact absurd hc (by simp [List.intercalate])
  | cons l₀ rest =>
    obtain ⟨hne, hhead⟩ := hg l₀ (List.mem_cons_self _ _)
    intro ch hc
    apply hhead ch
    rw [← hc]
    cases rest with
    | nil => rw [intercalate_singleton_line]
    | cons b t =>
      rw [intercalate_cons₂,
        show l₀ ++ '\n' :: List.intercalate ['\n'] (b :: t)
          = l₀ ++ ('\n' :: List.intercalate ['\n'] (b :: t)) from rfl,
        head?_append_left _ _ hne]

theorem intercalate_getLast_ok (L : List (List Char))
    (hg : ∀ l ∈ L, l ≠ [] ∧ ∀ ch, l.getLast? = some ch → isWs ch = false) :
    ∀ ch, (List.intercalate ['\n'] L).getLast? = some ch → isWs ch = false := by
  induction L with
  | nil =>
    intro ch hc
    exact absurd hc (by simp [List.intercalate])
  | cons l₀ rest ih =>
    obtain ⟨hne, hlast⟩ := hg l₀ (List.mem_cons_self _ _)
    cases rest with
    | nil =>
      intro ch hc
      rw [intercalate_singleton_line] at hc
      exact hlast ch hc
    | cons b t =>
      intro ch hc
      have hbne : b ≠ [] := (hg b (List.mem_cons_of_mem _ (List.mem_cons_self _ _))).1
      rw [intercalate_cons₂, show l₀ ++ '\n' :: List.intercalate ['\n'] (b :: t)
            = l₀ ++ ['\n'] ++ List.intercalate ['\n'] (b :: t) by simp,
        getLast?_append_right _ _ (intercalate_ne_nil b t hbne)] at hc
      exact ih (fun l hl => hg l (List.mem_cons_of_mem _ hl)) ch hc

theorem patLines_intercalate (L : List (List Char)) (hne : L ≠ [])
    (hnl : ∀ l ∈ L, '\n' ∉ l)
    (h1 : ∀ ch, (List.intercalate ['\n'] L).head? = some ch → isWs ch = false)
    (h2 : ∀ ch, (List.intercalate ['\n'] L).getLast? = some ch → isWs ch = false) :
    patLines ⟨List.intercalate ['\n'] L⟩ = L.map (fun l => (⟨l⟩ : String)) := by
  rw [patLines]
  show ((jsTrim (List.intercalate ['\n'] L)).splitOn '\n').map _ = _
  rw [jsTrim_eq_self _ h1 h2, List.splitOn_intercalate L '\n' hnl hne]

theorem mem_of_head? {α : Type} (l : List α) (c : α) (h : l.head? = some c) : c ∈ l := by
  cases l with
  | nil => exact absurd h (by simp)
  | cons a t =>
    have hca : c = a := by injection h with h'; exact h'.symm
    subst hca
    exact List.mem_cons_self _ _

theorem mem_of_getLast? {α : Type} (l : List α) (c : α) (h : l.getLast? = some c) : c ∈ l := by
  rw [← List.head?_reverse] at h
  exact List.mem_reverse.mp (mem_of_head? l.reverse c h)

theorem lineTokens_of_splitOn (line : String) (toks : List (List Char))
    (h : (jsTrim line.data).splitOn ' ' = toks) :
    lineTokens line =
      (match toks.get? 0, toks.get? 1 with
       | some a, some b => if a = [] ∨ b = [] then none else some (⟨a⟩, ⟨b⟩)
       | _, _ => none) := by
  subst h
  rfl

theorem lineTokens_render (note pat : List Char)
    (hnote : note ≠ []) (hpat : pat ≠ [])
    (hs1 : ' ' ∉ note) (hs2 : ' ' ∉ pat)
    (ht1 : ∀ ch, (note ++ ' ' :: pat).head? = some ch → isWs ch = false)
    (ht2 : ∀ ch, (note ++ ' ' :: pat).getLast? = some ch → isWs ch = false) :
    lineTokens ⟨note ++ ' ' :: pat⟩ = some (⟨note⟩, ⟨pat⟩) := by
  have hsplit : (jsTrim ((⟨note ++ ' ' :: pat⟩ : String).data)).splitOn ' ' = [note, pat] := by
    show (jsTrim (note ++ ' ' :: pat)).splitOn ' ' = [note, pat]
    rw [jsTrim_eq_self _ ht1 ht2]
    rw [show note ++ ' ' :: pat = List.intercalate [' '] [note, pat] by
      simp [List.intercalate, List.intersperse_cons_cons]]
    refine List.splitOn_intercalate [note, pat] ' ' ?_ (by simp)
    intro l hl
    rcases List.mem_cons.mp hl with rfl | hl
    · exact hs1
    · rcases List.mem_cons.mp hl with rfl | hl
      · exact hs2
      · exact absurd hl (List.not_mem_nil l)
  rw [lineTokens_of_splitOn _ [note, pat] hsplit]
  show (if note = [] ∨ pat = [] then none
        else some ((⟨note⟩ : String), (⟨pat⟩ : String))) = _
  rw [if_neg]
  push_neg
  exact ⟨hnote, hpat⟩

theorem renderHitLine_head_ok (h : DrumHit) (hne : h.note.data ≠ [])
    (hnw : ∀ ch, h.note.data.head? = some ch → isWs ch = false) :
    ∀ ch, (renderHitLine h).head? = some ch → isWs ch = false := by
  intro ch hc
  rw [renderHitLine, head?_append_left _ _ hne] at hc
  exact hnw ch hc

theorem renderHitLine_getLast_ok (h : DrumHit) (hne : h.pattern.data ≠ [])
    (hnw : ∀ ch, h.pattern.data.getLast? = some ch → isWs ch = false) :
    ∀ ch, (renderHitLine h).getLast? = some ch → isWs ch = false := by
  intro ch hc
  rw [renderHitLine,
    show h.note.data ++ ' ' :: h.pattern.data
      = (h.note.data ++ [' ']) ++ h.pattern.data by simp,
    getLast?_append_right _ _ hne] at hc
  exact hnw ch hc

theorem renderMask_mem (accents : List Bool) (c : Char) (hc : c ∈ renderMask accents) :
    c = 'x' ∨ c = '-' := by
  obtain ⟨b, _, hb⟩ := List.mem_map.mp hc
  cases b
  · exact Or.inr hb.symm
  · exact Or.inl hb.symm

theorem renderMask_not_ws (accents : List Bool) (c : Char) (hc : c ∈ renderMask accents) :
    isWs c = false := by
  rcases renderMask_mem accents c hc with rfl | rfl <;> decide

theorem acMask_renderMask (accents : List Bool) :
    acMask ⟨renderMask accents⟩ = accents := by
  show (renderMask accents).map (fun c => c == 'x') = accents
  induction accents with
  | nil => rfl
  | cons b t ih =>
    cases b
    · show false :: (renderMask t).map (fun c => c == 'x') = false :: t
      rw [ih]
    · show true :: (renderMask t).map (fun c => c == 'x') = true :: t
      rw [ih]

theorem lineTokens_renderAC (accents : List Bool) (hne : accents ≠ []) :
    lineTokens ⟨'A' :: 'C' :: ' ' :: renderMask accents⟩
      = some ("AC", ⟨renderMask accents⟩) := by
  have hmne : renderMask accents ≠ [] := by
    rw [renderMask]
    intro hmap
    exact hne (List.map_eq_nil_iff.mp hmap)
  have h := lineTokens_render ['A', 'C'] (renderMask accents) (by simp) hmne
    (by decide) (fun hsp => absurd (renderMask_not_ws accents ' ' hsp) (by decide))
    ?_ ?_
  · exact h
  · intro ch hc
    have : ch = 'A' := by injection hc with h'; exact h'.symm
    subst this
    decide
  · intro ch hc
    rw [show ['A', 'C'] ++ ' ' :: renderMask accents
        = (['A', 'C'] ++ [' ']) ++ renderMask accents by simp,
      getLast?_append_right _ _ hmne] at hc
    exact renderMask_not_ws accents ch (mem_of_getLast? _ ch hc)

theorem filterMap_eq_self_of_some {α : Type} (f : α → Option α) (L : List α)
    (h : ∀ a ∈ L, f a = some a) : L.filterMap f = L := by
  induction L with
  | nil => rfl
  | cons a t ih =>
    rw [List.filterMap_cons, h a (List.mem_cons_self _ _),
      ih (fun x hx => h x (List.mem_cons_of_mem _ hx))]

theorem lineTokens_some_ne (l : String) (a b : String) (h : lineTokens l = some (a, b)) :
    a.data ≠ [] ∧ b.data ≠ [] := by
  rw [lineTokens_of_splitOn l _ rfl] at h
  cases h0 : ((jsTrim l.data).splitOn ' ').get? 0 with
  | none => rw [h0] at h; exact absurd h (by simp)
  | some a' =>
    cases h1 : ((jsTrim l.data).splitOn ' ').get? 1 with
    | none => rw [h0, h1] at h; exact absurd h (by simp)
    | some b' =>
      rw [h0, h1] at h
      have h' : (if a' = [] ∨ b' = [] then none
          else some ((⟨a'⟩ : String), (⟨b'⟩ : String))) = some (a, b) := h
      by_cases he : a' = [] ∨ b' = []
      · rw [if_pos he] at h'
        exact absurd h' (by simp)
      · rw [if_neg he] at h'
        push_neg at he
        have hpair := Option.some.inj h'
        have ha : (⟨a'⟩ : String) = a := congrArg Prod.fst hpair
        have hb : (⟨b'⟩ : String) = b := congrArg Prod.snd hpair
        rw [← ha, ← hb]
        exact he

theorem lineHit_inv (l : String) (h : DrumHit) (hh : lineHit l = some h) :
    lineTokens l = some (h.note, h.pattern) ∧ h.note ≠ "AC" := by
  rw [lineHit] at hh
  cases ht : lineTokens l with
  | none => rw [ht] at hh; exact absurd hh (by simp)
  | some nb =>
    obtain ⟨a, b⟩ := nb
    rw [ht] at hh
    have hh' : (if a = "AC" then none else some (⟨a, b⟩ : DrumHit)) = some h := hh
    by_cases hac : a = "AC"
    · rw [if_pos hac] at hh'
      exact absurd hh' (by simp)
    · rw [if_neg hac] at hh'
      obtain rfl := Option.some.inj hh'
      exact ⟨rfl, hac⟩

theorem lineAC_inv (l : String) (pat : String) (hh : lineAC l = some pat) :
    lineTokens l = some ("AC", pat) := by
  rw [lineAC] at hh
  cases ht : lineTokens l with
  | none => rw [ht] at hh; exact absurd hh (by simp)
  | some nb =>
    obtain ⟨a, b⟩ := nb
    rw [ht] at hh
    have hh' : (if a = "AC" then some b else none) = some pat := hh
    by_cases hac : a = "AC"
    · rw [if_pos hac] at hh'
      obtain rfl := Option.some.inj hh'
      rw [hac]
    · rw [if_neg hac] at hh'
      exact absurd hh' (by simp)

theorem linePat_cases (l : String) (pat : String) (hp : linePat l = some pat) :
    (∃ a, lineHit l = some ⟨a, pat⟩) ∨ lineAC l = some pat := by
  rw [linePat] at hp
  cases ht : lineTokens l with
  | none => rw [ht] at hp; exact absurd hp (by simp)
  | some nb =>
    obtain ⟨a, b⟩ := nb
    rw [ht] at hp
    have hp' : some b = some pat := hp
    obtain rfl := Option.some.inj hp'
    by_cases hac : a = "AC"
    · right
      rw [lineAC, ht]
      show (if a = "AC" then some b else none) = some b
      rw [if_pos hac]
    · left
      refine ⟨a, ?_⟩
      rw [lineHit, ht]
      show (if a = "AC" then none else some (⟨a, b⟩ : DrumHit)) = some (⟨a, b⟩ : DrumHit)
      rw [if_neg hac]

theorem linePat_inv (l : String) (pat : String) (hp : linePat l = some pat) :
    ∃ a, lineTokens l = some (a, pat) := by
  rw [linePat] at hp
  cases ht : lineTokens l with
  | none => rw [ht] at hp; exact absurd hp (by simp)
  | some nb =>
    obtain ⟨a, b⟩ := nb
    rw [ht] at hp
    have hp' : some b = some pat := hp
    obtain rfl := Option.some.inj hp'
    exact ⟨a, rfl⟩

theorem acceptedHits_spec (c : String) (h : DrumHit) (hm : h ∈ acceptedHits c) :
    h.note ≠ "AC" ∧ h.note.data ≠ [] ∧ h.pattern.data ≠ [] := by
  obtain ⟨l, _, hlh⟩ := List.mem_filterMap.mp hm
  obtain ⟨ht, hac⟩ := lineHit_inv l h hlh
  obtain ⟨h1, h2⟩ := lineTokens_some_ne l _ _ ht
  exact ⟨hac, h1, h2⟩

theorem acceptedLengths_pos (c : String) (m : Nat) (hm : m ∈ acceptedLengths c) : 0 < m := by
  obtain ⟨l, _, hlm⟩ := List.mem_filterMap.mp hm
  cases hp : linePat l with
  | none => rw [hp] at hlm; exact absurd hlm (by simp)
  | some pat =>
    rw [hp] at hlm
    have hlen : pat.length = m := Option.some.inj hlm
    obtain ⟨a, hta⟩ := linePat_inv l pat hp
    have hne := (lineTokens_some_ne l a pat hta).2
    rw [← hlen]
    exact List.length_pos.mpr hne

theorem parse_hits_length (c nm : String) (k : Nat)
    (hk : (parsePatFile c nm).patternLength = some k) :
    ∀ h ∈ (parsePatFile c nm).hits, h.pattern.data.length = k := by
  intro h hm
  rw [parse_hits_eq] at hm
  obtain ⟨h0, hh0, rfl⟩ := List.mem_map.mp hm
  have hmin := (parse_patternLength_min c nm k hk).2 _ (acceptedHits_length_mem c h0 hh0)
  have hmin' : k ≤ h0.pattern.data.length := hmin
  rw [hk]
  show (h0.pattern.data.take k).length = k
  rw [List.length_take, min_eq_left hmin']

theorem lastAC_length_mem (c : String) (pat : String) (h : lastAC c = some pat) :
    pat.length ∈ acceptedLengths c := by
  rw [lastAC] at h
  obtain ⟨l, hl, hlp⟩ := List.mem_filterMap.mp (mem_of_getLast? _ pat h)
  exact List.mem_filterMap.mpr ⟨l, hl, by rw [lineAC_linePat l pat hlp]; rfl⟩

theorem lineHit_of_tokens (l : String) (a b : String) (ht : lineTokens l = some (a, b))
    (hac : a ≠ "AC") : lineHit l = some ⟨a, b⟩ := by
  rw [lineHit, ht]
  show (if a = "AC" then none else some (⟨a, b⟩ : DrumHit)) = some (⟨a, b⟩ : DrumHit)
  rw [if_neg hac]

theorem lineHit_of_tokens_AC (l : String) (b : String)
    (ht : lineTokens l = some ("AC", b)) : lineHit l = none := by
  rw [lineHit, ht]
  show (if "AC" = "AC" then none else some (⟨"AC", b⟩ : DrumHit)) = none
  rw [if_pos rfl]

theorem lineAC_of_tokens (l : String) (b : String)
    (ht : lineTokens l = some ("AC", b)) : lineAC l = some b := by
  rw [lineAC, ht]
  show (if "AC" = "AC" then some b else none) = some b
  rw [if_pos rfl]

theorem lineAC_of_tokens_ne (l : String) (a b : String) (ht : lineTokens l = some (a, b))
    (hac : a ≠ "AC") : lineAC l = none := by
  rw [lineAC, ht]
  show (if a = "AC" then some b else none) = none
  rw [if_neg hac]

theorem linePat_of_tokens (l : String) (a b : String) (ht : lineTokens l = some (a, b)) :
    linePat l = some b := by
  rw [linePat, ht]

theorem filterMap_eq_map_of_some {α β : Type} (f : α → Option β) (g : α → β) (L : List α)
    (h : ∀ a ∈ L, f a = some (g a)) : L.filterMap f = L.map g := by
  induction L with
  | nil => rfl
  | cons a t ih =>
    rw [List.filterMap_cons, h a (List.mem_cons_self _ _), List.map_cons,
      ih (fun x hx => h x (List.mem_cons_of_mem _ hx))]

theorem map_eq_self_of_eq {α : Type} (f : α → α) (L : List α) (h : ∀ a ∈ L, f a = a) :
    L.map f = L := by
  induction L with
  | nil => rfl
  | cons a t ih =>
    rw [List.map_cons, h a (List.mem_cons_self _ _),
      ih (fun x hx => h x (List.mem_cons_of_mem _ hx))]

theorem getLast?_of_ne_nil {α : Type} (l : List α) (h : l ≠ []) :
    ∃ q, l.getLast? = some q := by
  rw [← List.head?_reverse]
  cases hrev : l.reverse with
  | nil => exact absurd (by simpa using hrev) h
  | cons a t => exact ⟨a, rfl⟩

theorem foldl_minInf_const (L : List Nat) (k : Nat) (hne : L ≠ [])
    (hall : ∀ m ∈ L, m = k) : L.foldl minInf none = some k := by
  cases L with
  | nil => exact absurd rfl hne
  | cons a L =>
    obtain ⟨r, h1, h2, h3, h4⟩ := foldl_minInf_spec L a
    have ha : a = k := hall a (List.mem_cons_self _ _)
    have hr : r = k := by
      rcases h3 with rfl | hr
      · exact ha
      · exact hall r (List.mem_cons_of_mem _ hr)
    rw [show (a :: L).foldl minInf none = L.foldl minInf (some a) from rfl, h1, hr]

theorem truncStr_eq_self (s : String) (k : Nat) (h : s.data.length ≤ k) :
    truncStr s (some k) = s := by
  show (⟨s.data.take k⟩ : String) = s
  rw [List.take_of_length_le h]

theorem parsedPattern_ext (a b : ParsedPattern) (h1 : a.hits = b.hits)
    (h2 : a.accents = b.accents) (h3 : a.patternLength = b.patternLength) : a = b := by
  obtain ⟨x1, x2, x3⟩ := a
  obtain ⟨y1, y2, y3⟩ := b
  have e1 : x1 = y1 := h1
  have e2 : x2 = y2 := h2
  have e3 : x3 = y3 := h3
  rw [e1, e2, e3]

theorem parse_hits_note (c nm : String) :
    ∀ h ∈ (parsePatFile c nm).hits, h.note ≠ "AC" ∧ h.note.data ≠ [] := by
  intro h hm
  rw [parse_hits_eq] at hm
  obtain ⟨h0, hh0, rfl⟩ := List.mem_map.mp hm
  have hs := acceptedHits_spec c h0 hh0
  exact ⟨hs.1, hs.2.1⟩

theorem parse_accents_length_le (c nm : String) (k : Nat)
    (hk : (parsePatFile c nm).patternLength = some k) :
    (parsePatFile c nm).accents.length ≤ k := by
  rw [parse_accents_eq, hk]
  exact truncList_length_le _ k

theorem parse_accents_length (c nm : String) (k : Nat)
    (hk : (parsePatFile c nm).patternLength = some k)
    (hne : (parsePatFile c nm).accents ≠ []) :
    (parsePatFile c nm).accents.length = k := by
  rw [parse_accents_eq, hk] at hne ⊢
  cases hA : lastAC c with
  | none =>
    rw [hA] at hne
    exact absurd (by show List.take k ([] : List Bool) = []; exact List.take_nil) hne
  | some q =>
    show ((acMask q).take k).length = k
    rw [List.length_take]
    apply min_eq_left
    have hkq := (parse_patternLength_min c nm k hk).2 _ (lastAC_length_mem c q hA)
    show k ≤ (acMask q).length
    rw [acMask, List.length_map]
    exact hkq

theorem parse_k_pos (c nm : String) (k : Nat)
    (hk : (parsePatFile c nm).patternLength = some k) : 0 < k :=
  acceptedLengths_pos c k ((parse_patternLength_min c nm k hk).1)

theorem parse_not_both_empty (c nm : String) (k : Nat)
    (hk : (parsePatFile c nm).patternLength = some k) :
    ¬((parsePatFile c nm).hits = [] ∧ (parsePatFile c nm).accents = []) := by
  rintro ⟨hh, ha⟩
  obtain ⟨l, hl, hlm⟩ := List.mem_filterMap.mp (parse_patternLength_min c nm k hk).1
  cases hp : linePat l with
  | none => rw [hp] at hlm; exact absurd hlm (by simp)
  | some pat =>
    rcases linePat_cases l pat hp with ⟨a, hhit⟩ | hAC
    · have : (⟨a, pat⟩ : DrumHit) ∈ acceptedHits c :=
        List.mem_filterMap.mpr ⟨l, hl, hhit⟩
      have : (⟨a, truncStr pat (parsePatFile c nm).patternLength⟩ : DrumHit)
          ∈ (parsePatFile c nm).hits := by
        rw [parse_hits_eq]
        exact List.mem_map.mpr ⟨⟨a, pat⟩, this, rfl⟩
      rw [hh] at this
      exact absurd this (List.not_mem_nil _)
    · have hmem : pat ∈ (patLines c).filterMap lineAC :=
        List.mem_filterMap.mpr ⟨l, hl, hAC⟩
      have hnil : (patLines c).filterMap lineAC ≠ [] := by
        intro h0
        rw [h0] at hmem
        exact absurd hmem (List.not_mem_nil _)
      obtain ⟨q, hq⟩ := getLast?_of_ne_nil _ hnil
      have hlast : lastAC c = some q := hq
      have halen : (parsePatFile c nm).accents.length = k := by
        apply parse_accents_length c nm k hk
        rw [parse_accents_eq, hk, hlast]
        show (acMask q).take k ≠ []
        intro htake
        have := congrArg List.length htake
        rw [List.length_take, List.length_nil] at this
        have hkq := (parse_patternLength_min c nm k hk).2 _ (lastAC_length_mem c q hlast)
        have hq1 : k ≤ (acMask q).length := by
          rw [acMask, List.length_map]
          exact hkq
        rw [min_eq_left hq1] at this
        exact absurd this (Nat.pos_iff_ne_zero.mp (parse_k_pos c nm k hk))
      rw [ha] at halen
      rw [List.length_nil] at halen
      exact absurd halen.symm (Nat.pos_iff_ne_zero.mp (parse_k_pos c nm k hk))

theorem filterMap_eq_nil_of_none {α β : Type} (f : α → Option β) (L : List α)
    (h : ∀ a ∈ L, f a = none) : L.filterMap f = [] := by
  induction L with
  | nil => rfl
  | cons a t ih =>
    rw [List.filterMap_cons, h a (List.mem_cons_self _ _),
      ih (fun x hx => h x (List.mem_cons_of_mem _ hx))]

theorem parse_hits_pattern_ne_nil (c nm : String) (k : Nat)
    (hk : (parsePatFile c nm).patternLength = some k) :
    ∀ h ∈ (parsePatFile c nm).hits, h.pattern.data ≠ [] := by
  intro h hm h0
  have hplen := parse_hits_length c nm k hk h hm
  rw [h0] at hplen
  have := parse_k_pos c nm k hk
  rw [List.length_nil] at hplen
  omega

theorem mem_of_mem_dropWhile (p : Char → Bool) (l : List Char) (c : Char)
    (h : c ∈ l.dropWhile p) : c ∈ l := by
  induction l with
  | nil => exact absurd h (List.not_mem_nil c)
  | cons a t ih =>
    rw [List.dropWhile_cons] at h
    by_cases hpa : p a
    · rw [if_pos hpa] at h
      exact List.mem_cons_of_mem a (ih h)
    · rw [if_neg hpa] at h
      exact h

theorem jsTrim_mem (l : List Char) (c : Char) (h : c ∈ jsTrim l) : c ∈ l := by
  rw [jsTrim, List.mem_reverse] at h
  have h1 := mem_of_mem_dropWhile _ _ _ h
  rw [List.mem_reverse] at h1
  exact mem_of_mem_dropWhile _ _ _ h1

theorem head?_dropWhile (p : Char → Bool) (l : List Char) (c : Char)
    (h : (l.dropWhile p).head? = some c) : p c = false := by
  induction l with
  | nil => exact absurd h (by simp)
  | cons a t ih =>
    rw [List.dropWhile_cons] at h
    by_cases hpa : p a
    · rw [if_pos hpa] at h
      exact ih h
    · rw [if_neg hpa] at h
      have hca : c = a := by injection h with h'; exact h'.symm
      subst hca
      simpa using hpa

theorem getLast?_dropWhile (p : Char → Bool) (l : List Char)
    (h : l.dropWhile p ≠ []) : (l.dropWhile p).getLast? = l.getLast? := by
  induction l with
  | nil => exact absurd rfl h
  | cons a t ih =>
    rw [List.dropWhile_cons]
    by_cases hpa : p a
    · rw [List.dropWhile_cons, if_pos hpa] at h
      rw [if_pos hpa, ih h]
      cases t with
      | nil => exact absurd rfl h
      | cons b t' => rw [List.getLast?_cons_cons]
    · rw [if_neg hpa]

theorem jsTrim_head (l : List Char) (ch : Char) (h : (jsTrim l).head? = some ch) :
    isWs ch = false := by
  rw [jsTrim, List.head?_reverse] at h
  have hne : (l.dropWhile isWs).reverse.dropWhile isWs ≠ [] := by
    intro h0
    rw [h0] at h
    exact absurd h (by simp)
  rw [getLast?_dropWhile _ _ hne, ← List.head?_reverse, List.reverse_reverse] at h
  exact head?_dropWhile _ _ _ h

theorem splitOnP_piece_chars (p : Char → Bool) (l : List Char) :
    ∀ piece ∈ l.splitOnP p, ∀ ch ∈ piece, p ch = false ∧ ch ∈ l := by
  induction l with
  | nil =>
    intro piece hp
    rw [List.splitOnP_nil] at hp
    obtain rfl := List.mem_singleton.mp hp
    intro ch hch
    exact absurd hch (List.not_mem_nil ch)
  | cons a t ih =>
    intro piece hp
    rw [List.splitOnP_cons] at hp
    by_cases hpa : p a
    · rw [if_pos hpa] at hp
      rcases List.mem_cons.mp hp with rfl | hp
      · intro ch hch
        exact absurd hch (List.not_mem_nil ch)
      · intro ch hch
        obtain ⟨h1, h2⟩ := ih piece hp ch hch
        exact ⟨h1, List.mem_cons_of_mem a h2⟩
    · rw [if_neg hpa] at hp
      cases hsp : t.splitOnP p with
      | nil => exact absurd hsp (List.splitOnP_ne_nil p t)
      | cons h₀ t₀ =>
        rw [hsp] at hp
        have hmh : (h₀ :: t₀).modifyHead (List.cons a) = (a :: h₀) :: t₀ := rfl
        rw [hmh] at hp
        rcases List.mem_cons.mp hp with rfl | hp
        · intro ch hch
          rcases List.mem_cons.mp hch with rfl | hch
          · exact ⟨by simpa using hpa, List.mem_cons_self _ _⟩
          · obtain ⟨h1, h2⟩ := ih h₀ (by rw [hsp]; exact List.mem_cons_self _ _) ch hch
            exact ⟨h1, List.mem_cons_of_mem a h2⟩
        · intro ch hch
          obtain ⟨h1, h2⟩ := ih piece (by rw [hsp]; exact List.mem_cons_of_mem h₀ hp) ch hch
          exact ⟨h1, List.mem_cons_of_mem a h2⟩

theorem splitOn_piece_chars (sep : Char) (l : List Char) (piece : List Char)
    (hp : piece ∈ l.splitOn sep) : ∀ ch ∈ piece, ch ≠ sep ∧ ch ∈ l := by
  intro ch hch
  have hres := splitOnP_piece_chars (fun x => x == sep) l piece hp ch hch
  refine ⟨?_, hres.2⟩
  intro he
  rw [he] at hres
  simp at hres

theorem splitOnP_head (p : Char → Bool) (l tok : List Char)
    (h0 : (l.splitOnP p).get? 0 = some tok) (hne : tok ≠ []) :
    tok.head? = l.head? := by
  cases l with
  | nil =>
    rw [List.splitOnP_nil] at h0
    have h0' : some ([] : List Char) = some tok := h0
    exact absurd (Option.some.inj h0').symm hne
  | cons a t =>
    rw [List.splitOnP_cons] at h0
    by_cases hpa : p a
    · rw [if_pos hpa] at h0
      have h0' : some ([] : List Char) = some tok := h0
      exact absurd (Option.some.inj h0').symm hne
    · rw [if_neg hpa] at h0
      cases hsp : t.splitOnP p with
      | nil => exact absurd hsp (List.splitOnP_ne_nil p t)
      | cons h₀ t₀ =>
        rw [hsp] at h0
        have h0' : some (a :: h₀) = some tok := h0
        rw [← Option.some.inj h0']
        rfl

theorem lineTokens_pieces (l : String) (a b : String) (h : lineTokens l = some (a, b)) :
    ((jsTrim l.data).splitOn ' ').get? 0 = some a.data ∧
    a.data ∈ (jsTrim l.data).splitOn ' ' ∧ b.data ∈ (jsTrim l.data).splitOn ' ' := by
  rw [lineTokens_of_splitOn l _ rfl] at h
  cases h0 : ((jsTrim l.data).splitOn ' ').get? 0 with
  | none => rw [h0] at h; exact absurd h (by simp)
  | some a' =>
    cases h1 : ((jsTrim l.data).splitOn ' ').get? 1 with
    | none => rw [h0, h1] at h; exact absurd h (by simp)
    | some b' =>
      rw [h0, h1] at h
      have h' : (if a' = [] ∨ b' = [] then none
          else some ((⟨a'⟩ : String), (⟨b'⟩ : String))) = some (a, b) := h
      by_cases he : a' = [] ∨ b' = []
      · rw [if_pos he] at h'
        exact absurd h' (by simp)
      · rw [if_neg he] at h'
        have hpair := Option.some.inj h'
        have ha : (⟨a'⟩ : String) = a := congrArg Prod.fst hpair
        have hb : (⟨b'⟩ : String) = b := congrArg Prod.snd hpair
        refine ⟨?_, ?_, ?_⟩
        · rw [← ha]
        · rw [← ha]
          exact List.get?_mem h0
        · rw [← hb]
          exact List.get?_mem h1

theorem patLines_data_mem (c : String) (l : String) (hl : l ∈ patLines c) :
    l.data ∈ (jsTrim c.data).splitOn '\n' := by
  rw [patLines] at hl
  obtain ⟨piece, hp, rfl⟩ := List.mem_map.mp hl
  exact hp

theorem endsNonWs_spec (l : List Char) (h : endsNonWs l = true) :
    ∀ ch, l.getLast? = some ch → isWs ch = false := by
  intro ch hch
  rw [endsNonWs, hch] at h
  have h' : (!(isWs ch)) = true := h
  simpa using h'

theorem parse_hits_tokens_clean (c nm : String) :
    ∀ h ∈ (parsePatFile c nm).hits,
      ' ' ∉ h.note.data ∧ ' ' ∉ h.pattern.data ∧
      '\n' ∉ h.note.data ∧ '\n' ∉ h.pattern.data ∧
      (∀ ch, h.note.data.head? = some ch → isWs ch = false) := by
  intro h hm
  rw [parse_hits_eq] at hm
  obtain ⟨h0, hh0, rfl⟩ := List.mem_map.mp hm
  obtain ⟨line, hline, hlh⟩ := List.mem_filterMap.mp hh0
  obtain ⟨ht, -⟩ := lineHit_inv line h0 hlh
  obtain ⟨hg0, hma, hmb⟩ := lineTokens_pieces line h0.note h0.pattern ht
  have hLmem := patLines_data_mem c line hline
  have hsubpat : ∀ ch, ch ∈ (truncStr h0.pattern (parsePatFile c nm).patternLength).data →
      ch ∈ h0.pattern.data := by
    intro ch hch
    cases hpl : (parsePatFile c nm).patternLength with
    | none =>
      rw [hpl] at hch
      exact hch
    | some k =>
      rw [hpl] at hch
      exact List.take_subset k h0.pattern.data hch
  refine ⟨?_, ?_, ?_, ?_, ?_⟩
  · intro hsp
    exact ((splitOn_piece_chars ' ' _ _ hma) ' ' hsp).1 rfl
  · intro hsp
    exact ((splitOn_piece_chars ' ' _ _ hmb) ' ' (hsubpat ' ' hsp)).1 rfl
  · intro hnl
    have hin := jsTrim_mem line.data '\n' ((splitOn_piece_chars ' ' _ _ hma) '\n' hnl).2
    exact ((splitOn_piece_chars '\n' _ _ hLmem) '\n' hin).1 rfl
  · intro hnl
    have hin := jsTrim_mem line.data '\n'
      ((splitOn_piece_chars ' ' _ _ hmb) '\n' (hsubpat '\n' hnl)).2
    exact ((splitOn_piece_chars '\n' _ _ hLmem) '\n' hin).1 rfl
  · intro ch hch
    have hne := (lineTokens_some_ne line _ _ ht).1
    have hh := splitOnP_head (fun x => x == ' ') (jsTrim line.data) h0.note.data hg0 hne
    rw [hh] at hch
    exact jsTrim_head _ ch hch

theorem renderLines_good (c nm : String) (k : Nat)
    (hk : (parsePatFile c nm).patternLength = some k)
    (hlast : ∀ h ∈ (parsePatFile c nm).hits, endsNonWs h.pattern.data = true) :
    ∀ l ∈ renderLines (parsePatFile c nm),
      l ≠ [] ∧ '\n' ∉ l ∧
      (∀ ch, l.head? = some ch → isWs ch = false) ∧
      (∀ ch, l.getLast? = some ch → isWs ch = false) := by
  intro l hl
  rw [renderLines] at hl
  rcases List.mem_append.mp hl with hlh | hlac
  · obtain ⟨h, hm, rfl⟩ := List.mem_map.mp hlh
    have hnote := parse_hits_note c nm h hm
    have hppos := parse_hits_pattern_ne_nil c nm k hk h hm
    have hclean := parse_hits_tokens_clean c nm h hm
    refine ⟨?_, ?_, ?_, ?_⟩
    · show h.note.data ++ ' ' :: h.pattern.data ≠ []
      intro h0
      exact absurd (List.append_eq_nil.mp h0).2 (by simp)
    · show '\n' ∉ h.note.data ++ ' ' :: h.pattern.data
      intro hmem
      rcases List.mem_append.mp hmem with h1 | h2
      · exact hclean.2.2.1 h1
      · rcases List.mem_cons.mp h2 with he | h3
        · exact absurd he (by decide)
        · exact hclean.2.2.2.1 h3
    · exact renderHitLine_head_ok h hnote.2 hclean.2.2.2.2
    · exact renderHitLine_getLast_ok h hppos (endsNonWs_spec _ (hlast h hm))
  · by_cases hae : (parsePatFile c nm).accents = []
    · rw [if_pos hae] at hlac
      exact absurd hlac (List.not_mem_nil l)
    · rw [if_neg hae] at hlac
      obtain rfl := List.mem_singleton.mp hlac
      have hmne : renderMask (parsePatFile c nm).accents ≠ [] := by
        rw [renderMask]
        intro h0
        exact hae (List.map_eq_nil_iff.mp h0)
      refine ⟨by simp, ?_, ?_, ?_⟩
      · intro hmem
        rcases List.mem_cons.mp hmem with he | hmem
        · exact absurd he (by decide)
        rcases List.mem_cons.mp hmem with he | hmem
        · exact absurd he (by decide)
        rcases List.mem_cons.mp hmem with he | hmem
        · exact absurd he (by decide)
        exact absurd (renderMask_not_ws _ '\n' hmem) (by decide)
      · intro ch hc
        have hca : ch = 'A' := by injection hc with h'; exact h'.symm
        subst hca
        decide
      · intro ch hc
        rw [show ('A' :: 'C' :: ' ' :: renderMask (parsePatFile c nm).accents)
            = ['A', 'C', ' '] ++ renderMask (parsePatFile c nm).accents by simp,
          getLast?_append_right _ _ hmne] at hc
        exact renderMask_not_ws _ ch (mem_of_getLast? _ ch hc)

theorem patLines_render (c nm : String) (k : Nat)
    (hk : (parsePatFile c nm).patternLength = some k)
    (hlast : ∀ h ∈ (parsePatFile c nm).hits, endsNonWs h.pattern.data = true) :
    patLines (renderPattern (parsePatFile c nm)) =
      (renderLines (parsePatFile c nm)).map (fun l => (⟨l⟩ : String)) := by
  have hg := renderLines_good c nm k hk hlast
  have hne : renderLines (parsePatFile c nm) ≠ [] := by
    rw [renderLines]
    intro h0
    obtain ⟨hl, hr⟩ := List.append_eq_nil.mp h0
    apply parse_not_both_empty c nm k hk
    refine ⟨List.map_eq_nil_iff.mp hl, ?_⟩
    by_cases hae : (parsePatFile c nm).accents = []
    · exact hae
    · rw [if_neg hae] at hr
      exact absurd hr (by simp)
  exact patLines_intercalate _ hne (fun l hl => (hg l hl).2.1)
    (intercalate_head_ok _ (fun l hl => ⟨(hg l hl).1, (hg l hl).2.2.1⟩))
    (intercalate_getLast_ok _ (fun l hl => ⟨(hg l hl).1, (hg l hl).2.2.2⟩))

theorem hit_line_tokens (c nm : String) (k : Nat)
    (hk : (parsePatFile c nm).patternLength = some k)
    (hlast : ∀ h ∈ (parsePatFile c nm).hits, endsNonWs h.pattern.data = true) :
    ∀ h ∈ (parsePatFile c nm).hits,
      lineTokens ⟨renderHitLine h⟩ = some (h.note, h.pattern) := by
  intro h hm
  have hnote := parse_hits_note c nm h hm
  have hppos := parse_hits_pattern_ne_nil c nm k hk h hm
  have hclean := parse_hits_tokens_clean c nm h hm
  exact lineTokens_render h.note.data h.pattern.data hnote.2 hppos
    hclean.1 hclean.2.1
    (renderHitLine_head_ok h hnote.2 hclean.2.2.2.2)
    (renderHitLine_getLast_ok h hppos (endsNonWs_spec _ (hlast h hm)))

/-- C9 (corrected): re-parsing the rendered truncated hit and accent lines
reproduces the first parse exactly — `patternLength`, hits and accents —
provided no hit's truncated step string ends in a whitespace character (in
the ECMAScript `trim` sense); the note keys and step-string interiors need
no proviso, since the parser's own tokenization guarantees them safe.
Without the proviso the round trip can fail (see the counterexample),
because the re-parse trims each rendered line again. -/
theorem c9_reparse_render (c nm nm2 : String)
    (hws : ∀ h ∈ (parsePatFile c nm).hits, endsNonWs h.pattern.data = true) :
    parsePatFile (renderPattern (parsePatFile c nm)) nm2 = parsePatFile c nm := by
  cases hk : (parsePatFile c nm).patternLength with
  | none =>
    have hh0 : (parsePatFile c nm).hits = [] := by
      rw [parse_hits_eq,
        acceptedHits_of_no_lengths c ((parse_patternLength_none_iff c nm).mp hk)]
      rfl
    have ha0 : (parsePatFile c nm).accents = [] := by
      rw [parse_accents_eq]
      cases hA : lastAC c with
      | none => rw [hk]; rfl
      | some q =>
        have hmem := lastAC_length_mem c q hA
        rw [(parse_patternLength_none_iff c nm).mp hk] at hmem
        exact absurd hmem (List.not_mem_nil _)
    have hR : renderPattern (parsePatFile c nm) = ⟨[]⟩ := by
      rw [renderPattern, renderLines, hh0, ha0]
      rfl
    rw [hR]
    refine parsedPattern_ext _ _ ?_ ?_ ?_
    · rw [hh0]; rfl
    · rw [ha0]; rfl
    · rw [hk]; rfl
  | some k =>
    have htok := hit_line_tokens c nm k hk hws
    have hplr := patLines_render c nm k hk hws
    by_cases hae : (parsePatFile c nm).accents = []
    · have hAH : acceptedHits (renderPattern (parsePatFile c nm))
          = (parsePatFile c nm).hits := by
        rw [acceptedHits, hplr, List.filterMap_map, renderLines, if_pos hae,
          List.append_nil, List.filterMap_map]
        apply filterMap_eq_self_of_some
        intro h hm
        have hres := lineHit_of_tokens _ h.note h.pattern (htok h hm)
          (parse_hits_note c nm h hm).1
        exact hres
      have hALv : acceptedLengths (renderPattern (parsePatFile c nm))
          = (parsePatFile c nm).hits.map (fun h => h.pattern.length) := by
        rw [acceptedLengths, hplr, List.filterMap_map, renderLines, if_pos hae,
          List.append_nil, List.filterMap_map]
        apply filterMap_eq_map_of_some
        intro h hm
        show (linePat ⟨renderHitLine h⟩).map String.length = some h.pattern.length
        rw [linePat_of_tokens _ h.note h.pattern (htok h hm)]
        rfl
      have hhne : (parsePatFile c nm).hits ≠ [] := by
        intro h0
        exact parse_not_both_empty c nm k hk ⟨h0, hae⟩
      have hPL' : (parsePatFile (renderPattern (parsePatFile c nm)) nm2).patternLength
          = some k := by
        rw [parse_patternLength, hALv]
        apply foldl_minInf_const
        · intro h0
          exact hhne (List.map_eq_nil_iff.mp h0)
        · intro m hm
          obtain ⟨h, hh, rfl⟩ := List.mem_map.mp hm
          exact parse_hits_length c nm k hk h hh
      have hLA : lastAC (renderPattern (parsePatFile c nm)) = none := by
        rw [lastAC, hplr, List.filterMap_map, renderLines, if_pos hae,
          List.append_nil, List.filterMap_map]
        have hnil : List.filterMap ((lineAC ∘ fun l => (⟨l⟩ : String)) ∘ renderHitLine)
            (parsePatFile c nm).hits = [] :=
          filterMap_eq_nil_of_none _ _ (fun h hm =>
            lineAC_of_tokens_ne _ h.note h.pattern (htok h hm)
              (parse_hits_note c nm h hm).1)
        rw [hnil]
        rfl
      refine parsedPattern_ext _ _ ?_ ?_ ?_
      · rw [parse_hits_eq, hAH, hPL']
        apply map_eq_self_of_eq
        intro h hm
        rw [truncStr_eq_self h.pattern k (le_of_eq (parse_hits_length c nm k hk h hm))]
      · rw [parse_accents_eq, hLA, hPL', hae]
        show List.take k ([] : List Bool) = []
        exact List.take_nil
      · rw [hPL', hk]
    · have hacl := parse_accents_length c nm k hk hae
      have hAH : acceptedHits (renderPattern (parsePatFile c nm))
          = (parsePatFile c nm).hits := by
        rw [acceptedHits, hplr, List.filterMap_map, renderLines, if_neg hae,
          List.filterMap_append, List.filterMap_map]
        have h1 : List.filterMap ((lineHit ∘ fun l => (⟨l⟩ : String)) ∘ renderHitLine)
            (parsePatFile c nm).hits
            = (parsePatFile c nm).hits := by
          apply filterMap_eq_self_of_some
          intro h hm
          have hres := lineHit_of_tokens _ h.note h.pattern (htok h hm)
            (parse_hits_note c nm h hm).1
          exact hres
        have h2 : List.filterMap (lineHit ∘ fun l => (⟨l⟩ : String))
            ['A' :: 'C' :: ' ' :: renderMask (parsePatFile c nm).accents] = [] := by
          apply filterMap_eq_nil_of_none
          intro a ha
          obtain rfl := List.mem_singleton.mp ha
          exact lineHit_of_tokens_AC _ _ (lineTokens_renderAC _ hae)
        rw [h1, h2, List.append_nil]
      have hmlen : (⟨renderMask (parsePatFile c nm).accents⟩ : String).length
          = (parsePatFile c nm).accents.length := by
        show (renderMask (parsePatFile c nm).accents).length = _
        rw [renderMask, List.length_map]
      have hALv : acceptedLengths (renderPattern (parsePatFile c nm))
          = (parsePatFile c nm).hits.map (fun h => h.pattern.length)
            ++ [(parsePatFile c nm).accents.length] := by
        rw [acceptedLengths, hplr, List.filterMap_map, renderLines, if_neg hae,
          List.filterMap_append, List.filterMap_map]
        have h1 : List.filterMap
            (((fun l => (linePat l).map String.length) ∘ fun l => (⟨l⟩ : String))
              ∘ renderHitLine)
            (parsePatFile c nm).hits
            = (parsePatFile c nm).hits.map (fun h => h.pattern.length) := by
          apply filterMap_eq_map_of_some
          intro h hm
          show (linePat ⟨renderHitLine h⟩).map String.length = some h.pattern.length
          rw [linePat_of_tokens _ h.note h.pattern (htok h hm)]
          rfl
        have h2 : List.filterMap
            ((fun l => (linePat l).map String.length) ∘ fun l => (⟨l⟩ : String))
            ['A' :: 'C' :: ' ' :: renderMask (parsePatFile c nm).accents]
            = [(parsePatFile c nm).accents.length] := by
          have := filterMap_eq_map_of_some
            ((fun l => (linePat l).map String.length) ∘ fun l => (⟨l⟩ : String))
            (fun _ => (parsePatFile c nm).accents.length)
            ['A' :: 'C' :: ' ' :: renderMask (parsePatFile c nm).accents] ?_
          · rw [this]
            rfl
          · intro a ha
            obtain rfl := List.mem_singleton.mp ha
            show (linePat ⟨'A' :: 'C' :: ' ' :: renderMask (parsePatFile c nm).accents⟩).map
              String.length = _
            rw [linePat_of_tokens _ "AC" _ (lineTokens_renderAC _ hae)]
            show some (⟨renderMask (parsePatFile c nm).accents⟩ : String).length = _
            rw [hmlen]
        rw [h1, h2]
      have hPL' : (parsePatFile (renderPattern (parsePatFile c nm)) nm2).patternLength
          = some k := by
        rw [parse_patternLength, hALv]
        apply foldl_minInf_const
        · simp
        · intro m hm
          rcases List.mem_append.mp hm with hm1 | hm2
          · obtain ⟨h, hh, rfl⟩ := List.mem_map.mp hm1
            exact parse_hits_length c nm k hk h hh
          · rw [List.mem_singleton.mp hm2]
            exact hacl
      have hLA : lastAC (renderPattern (parsePatFile c nm))
          = some ⟨renderMask (parsePatFile c nm).accents⟩ := by
        rw [lastAC, hplr, List.filterMap_map, renderLines, if_neg hae,
          List.filterMap_append, List.filterMap_map]
        have h1 : List.filterMap ((lineAC ∘ fun l => (⟨l⟩ : String)) ∘ renderHitLine)
            (parsePatFile c nm).hits = [] :=
          filterMap_eq_nil_of_none _ _ (fun h hm =>
            lineAC_of_tokens_ne _ h.note h.pattern (htok h hm)
              (parse_hits_note c nm h hm).1)
        have h2 : List.filterMap (lineAC ∘ fun l => (⟨l⟩ : String))
            ['A' :: 'C' :: ' ' :: renderMask (parsePatFile c nm).accents]
            = [⟨renderMask (parsePatFile c nm).accents⟩] := by
          have := filterMap_eq_map_of_some
            (lineAC ∘ fun l => (⟨l⟩ : String))
            (fun _ => (⟨renderMask (parsePatFile c nm).accents⟩ : String))
            ['A' :: 'C' :: ' ' :: renderMask (parsePatFile c nm).accents] ?_
          · rw [this]
            rfl
          · intro a ha
            obtain rfl := List.mem_singleton.mp ha
            exact lineAC_of_tokens _ _ (lineTokens_renderAC _ hae)
        rw [h1, h2]
        rfl
      refine parsedPattern_ext _ _ ?_ ?_ ?_
      · rw [parse_hits_eq, hAH, hPL']
        apply map_eq_self_of_eq
        intro h hm
        rw [truncStr_eq_self h.pattern k (le_of_eq (parse_hits_length c nm k hk h hm))]
      · rw [parse_accents_eq, hLA, hPL']
        show truncList (acMask ⟨renderMask (parsePatFile c nm).accents⟩) (some k)
          = (parsePatFile c nm).accents
        rw [acMask_renderMask]
        show (parsePatFile c nm).accents.take k = (parsePatFile c nm).accents
        exact List.take_of_length_le (le_of_eq hacl)
      · rw [hPL', hk]

/-- C9 witness: the theorem applied to a concrete input, with one hit line
and one accent line, whose step string does not end in whitespace. -/
theorem c9_reparse_render_witness :
    parsePatFile (renderPattern (parsePatFile "36 xx\nAC -x" "f")) "g"
      = parsePatFile "36 xx\nAC -x" "f" :=
  c9_reparse_render "36 xx\nAC -x" "f" "g" (by decide)

/-- C9 counterexample: the hit `36 x\t` (an embedded tab survives the first
parse inside the step string) renders to a line whose re-parse trims the
tab away, so the second parse returns a different `patternLength` and
different content, contradicting the unconditional claim. -/
theorem c9_counterexample :
    (parsePatFile "36 x\t x\n37 xx" "f").patternLength = some 2 ∧
    (parsePatFile (renderPattern (parsePatFile "36 x\t x\n37 xx" "f")) "f").patternLength
      = some 1 ∧
    parsePatFile (renderPattern (parsePatFile "36 x\t x\n37 xx" "f")) "f"
      ≠ parsePatFile "36 x\t x\n37 xx" "f" := by
  decide

end Pat2Midi
